import Mathlib

/-!
# gortvoice: circular playback buffer, turn arbitration and event handling

A shallow embedding of the core of `christopher18/gortvoice`:

* `pkg/audiooutput/util.go`: `CircularBuffer`, `NewCircularBuffer`, `Write`, `Read`;
* `pkg/openairealtime/openairealtime.go`: `Start`, the dispatch of `listenForEvents`,
  `listenForAudioInput`;
* `pkg/openairealtime/eventhandler.go`: `handleResponseAudioDelta`;
* `pkg/audiooutput/audiooutput.go`: the playback loop of `StreamHandler.Play`.

Conventions.  Go `int` indices are natural numbers (they are never negative and never
come near the machine bound).  `int16` samples are integers: the buffer only stores and
copies them.  Bytes are natural numbers below 256.  A Go runtime panic (index out of
range, integer division by zero) is the result `none`.
-/

namespace Gortvoice

/-! ## The circular buffer (`pkg/audiooutput/util.go`) -/

/-- The struct `CircularBuffer`.  The field `end` is spelled `end_`.  The mutex `mu` is
not a field of the model: `Write` and `Read` hold it for their whole body, so each call
is one atomic state transformation. -/
structure CircularBuffer where
  buffer : List Int
  size : Nat
  start : Nat
  end_ : Nat
deriving DecidableEq, Repr

/-- `NewCircularBuffer(size)`: a zeroed backing store of `size` samples, both cursors 0. -/
def NewCircularBuffer (size : Nat) : CircularBuffer :=
  { buffer := List.replicate size 0, size := size, start := 0, end_ := 0 }

/-- The body of the `range` loop of `Write` for one sample:
`cb.buffer[cb.end] = sample; cb.end = (cb.end + 1) % cb.size;`
`if cb.end == cb.start { cb.start = (cb.start + 1) % cb.size }`. -/
def CircularBuffer.writeSample (cb : CircularBuffer) (sample : Int) : Option CircularBuffer :=
  if cb.end_ < cb.buffer.length then
    if cb.size = 0 then none
    else
      let buffer := cb.buffer.set cb.end_ sample
      let end_ := (cb.end_ + 1) % cb.size
      if end_ = cb.start then
        some { buffer := buffer, size := cb.size, start := (cb.start + 1) % cb.size, end_ := end_ }
      else
        some { buffer := buffer, size := cb.size, start := cb.start, end_ := end_ }
  else none

/-- `Write(data)`: the loop body once per sample of `data`, in order. -/
def CircularBuffer.Write (cb : CircularBuffer) : List Int → Option CircularBuffer
  | [] => some cb
  | sample :: rest => (cb.writeSample sample).bind (fun cb1 => cb1.Write rest)

/-- The first loop of `Read`: `for count < len(out) && cb.start != cb.end`.  The last
argument is `len(out) - count`, so `count < len(out)` is the test that it is not zero. -/
def CircularBuffer.readCopy (cb : CircularBuffer) (out : List Int) (count : Nat) :
    Nat → Option (CircularBuffer × List Int × Nat)
  | 0 => some (cb, out, count)
  | remaining + 1 =>
    if cb.start ≠ cb.end_ then
      match cb.buffer[cb.start]? with
      | none => none
      | some v =>
        if cb.size = 0 then none
        else
          CircularBuffer.readCopy
            { buffer := cb.buffer, size := cb.size, start := (cb.start + 1) % cb.size,
              end_ := cb.end_ }
            (out.set count v) (count + 1) remaining
    else some (cb, out, count)

/-- The second loop of `Read`: `for count < len(out) { out[count] = 0; count++ }`, the
last argument again being `len(out) - count`. -/
def readFill (out : List Int) (count : Nat) : Nat → List Int × Nat
  | 0 => (out, count)
  | remaining + 1 => readFill (out.set count 0) (count + 1) remaining

/-- `Read(out)`: the buffer afterwards, the contents of `out` afterwards, and the
returned count. -/
def CircularBuffer.Read (cb : CircularBuffer) (out : List Int) :
    Option (CircularBuffer × List Int × Nat) :=
  match cb.readCopy out 0 out.length with
  | none => none
  | some (cb1, out1, count) =>
    let r := readFill out1 count (out1.length - count)
    some (cb1, r.1, r.2)

/-- A sequence of `Write` calls, one per element of `writes`. -/
def CircularBuffer.Writes (cb : CircularBuffer) : List (List Int) → Option CircularBuffer
  | [] => some cb
  | data :: rest => (cb.Write data).bind (fun cb1 => cb1.Writes rest)

/-- The number of unread samples: the distance from the read cursor `start` forward to
the write cursor `end`, around the ring. -/
def CircularBuffer.available (cb : CircularBuffer) : Nat :=
  (cb.end_ + cb.size - cb.start) % cb.size

/-- The unread content: the stored samples from the read cursor up to the write cursor. -/
def CircularBuffer.unread (cb : CircularBuffer) : List Int :=
  (List.range cb.available).map (fun i => cb.buffer.getD ((cb.start + i) % cb.size) 0)

/-- The representation invariant: a positive size, a backing store of that length, both
cursors inside it. -/
def CircularBuffer.WellFormed (cb : CircularBuffer) : Prop :=
  1 ≤ cb.size ∧ cb.buffer.length = cb.size ∧ cb.start < cb.size ∧ cb.end_ < cb.size

/-- The buffer with the read cursor moved forward by `m` places around the ring. -/
def CircularBuffer.advance (cb : CircularBuffer) (m : Nat) : CircularBuffer :=
  { buffer := cb.buffer, size := cb.size, start := (cb.start + m) % cb.size, end_ := cb.end_ }

/-- The last `k` elements of a list (the whole list when it is shorter). -/
def lastN (k : Nat) (l : List Int) : List Int := l.drop (l.length - k)

/-! ## Standard base64 (`encoding/base64`, `StdEncoding`)

The Go library functions called by the client.  Bytes are natural numbers below 256 and a
Go string is a Lean `String`; a character outside ASCII is, like each of its UTF-8 bytes
in Go, outside the alphabet. -/

/-- The alphabet of `StdEncoding`: the table `enc.encode`. -/
def encodeStd : List Char :=
  "ABCDEFGHIJKLMNOPQRSTUVWXYZabcdefghijklmnopqrstuvwxyz0123456789+/".toList

/-- The lookup `enc.encode[v & 0x3F]`. -/
def encodeChar (v : Nat) : Char := encodeStd.getD (v &&& 0x3F) 'A'

/-- The table `enc.decodeMap`: the position of a character in the alphabet, `0xff` for
every other character. -/
def decodeMap (c : Char) : Nat :=
  if encodeStd.indexOf c < 64 then encodeStd.indexOf c else 0xff

/-- The loop of `Encoding.Encode` on the bytes of `src`: three bytes give four characters;
a remainder of one or two bytes gives two or three characters and `=` padding. -/
def encodeBytes : List Nat → List Char
  | [] => []
  | [a] =>
    let val := a <<< 16
    [encodeChar (val >>> 18), encodeChar (val >>> 12), '=', '=']
  | [a, b] =>
    let val := (a <<< 16) ||| (b <<< 8)
    [encodeChar (val >>> 18), encodeChar (val >>> 12), encodeChar (val >>> 6), '=']
  | a :: b :: c :: rest =>
    let val := (a <<< 16) ||| (b <<< 8) ||| c
    encodeChar (val >>> 18) :: encodeChar (val >>> 12) :: encodeChar (val >>> 6)
      :: encodeChar val :: encodeBytes rest

/-- `base64.StdEncoding.EncodeToString(src)`. -/
def EncodeToString (src : List Nat) : String := String.mk (encodeBytes src)

/-- The loops `for si < len(src) && (src[si] == '\n' || src[si] == '\r') { si++ }` of
`decodeQuantum`: the input left after skipping newlines. -/
def skipNewlines : List Char → List Char
  | [] => []
  | c :: rest => if c = '\n' ∨ c = '\r' then skipNewlines rest else c :: rest

/-- The end of `decodeQuantum`: the first `dlen - 1` bytes of the 24-bit value assembled
from the four 6-bit digits of `dbuf` (missing digits are 0). -/
def quantumBytes (dbuf : List Nat) (dlen : Nat) : List Nat :=
  let val := (dbuf.getD 0 0 <<< 18) ||| (dbuf.getD 1 0 <<< 12) ||| (dbuf.getD 2 0 <<< 6)
    ||| dbuf.getD 3 0
  [(val >>> 16) % 256, (val >>> 8) % 256, val % 256].take (dlen - 1)

/-- `Encoding.Decode` for `StdEncoding` (padded, not strict), as the one pass over the
input that the repeated calls of `decodeQuantum` make: `j` and `dbuf` are the digit count
and digits of the quantum being read, `acc` the bytes decoded so far.  The result is the
bytes written and whether an error (`CorruptInputError`) is returned.  The 8- and
4-character fast paths of `Decode` give the same bytes as `decodeQuantum` on the inputs
they accept and hand every other input to it. -/
def decodeLoop : List Char → Nat → List Nat → List Nat → List Nat × Bool
  | [], j, _, acc => if j = 0 then (acc, false) else (acc, true)
  | c :: rest, j, dbuf, acc =>
    if decodeMap c ≠ 0xff then
      if j = 3 then decodeLoop rest 0 [] (acc ++ quantumBytes (dbuf ++ [decodeMap c]) 4)
      else decodeLoop rest (j + 1) (dbuf ++ [decodeMap c]) acc
    else if c = '\n' ∨ c = '\r' then decodeLoop rest j dbuf acc
    else if c ≠ '=' then (acc, true)
    else if j = 0 ∨ j = 1 then (acc, true)
    else if j = 2 then
      match skipNewlines rest with
      | [] => (acc, true)
      | c1 :: rest1 =>
        if c1 ≠ '=' then (acc, true)
        else (acc ++ quantumBytes dbuf j, decide (skipNewlines rest1 ≠ []))
    else (acc ++ quantumBytes dbuf j, decide (skipNewlines rest ≠ []))

/-- `base64.StdEncoding.DecodeString(s)`: the decoded bytes and whether the returned
error is non-nil. -/
def DecodeString (s : String) : List Nat × Bool := decodeLoop s.toList 0 [] []

/-! ## The realtime client (`pkg/openairealtime`)

`encoding/json`, `uuid` and the WebSocket connection are outside the repository.  A
message is represented by what `json.Unmarshal` makes of it, identifiers come from a
generator `uuid : Nat → String` (the `k`-th call of `uuid.NewString()` returns `uuid k`),
and what a function does to the connection is returned as a list of effects. -/

/-- The dynamic value of a Go `interface{}` as far as `switch data["type"]` can tell:
the nil interface (key absent, or JSON `null`), a string, or a value of any other dynamic
type (`bool`, `float64`, a slice, a map). -/
inductive Iface where
  | nil
  | str (s : String)
  | other
deriving DecidableEq, Repr

/-- An inbound text message as `encoding/json` presents it to the client.
`dataType` is `none` when `json.Unmarshal(message, &data)` returns an error and otherwise
the value of `data["type"]`; `Delta` is the field `audioDelta.Delta` after
`json.Unmarshal(b, &audioDelta)`, whose error `handleResponseAudioDelta` ignores. -/
structure Message where
  dataType : Option Iface
  Delta : String
deriving DecidableEq, Repr

/-- The struct `OpenAIRealtimeClient`.  The two channels are `none` when nil and
otherwise carry a handle of the attached channel; `conn` is not a field of the model. -/
structure OpenAIRealtimeClient where
  audioOutput : Option Nat
  audioInput : Option Nat
  assistantIsTalking : Bool
deriving DecidableEq, Repr

/-- The client that `GetOpenAIRealtimeClient` returns when it succeeds:
`&OpenAIRealtimeClient{conn: conn}`, every other field at its zero value. -/
def GetOpenAIRealtimeClient : OpenAIRealtimeClient :=
  { audioOutput := none, audioInput := none, assistantIsTalking := false }

/-- `AttachAudioOutput(output)`. -/
def OpenAIRealtimeClient.AttachAudioOutput (c : OpenAIRealtimeClient) (output : Nat) :
    OpenAIRealtimeClient :=
  { c with audioOutput := some output }

/-- `AttachAudioInput(input)`. -/
def OpenAIRealtimeClient.AttachAudioInput (c : OpenAIRealtimeClient) (input : Nat) :
    OpenAIRealtimeClient :=
  { c with audioInput := some input }

/-- What the connection and the scheduler see of a call of `Start`. -/
inductive StartEffect where
  | writeSessionUpdate
  | goListenForEvents
  | goListenForAudioInput
deriving DecidableEq, Repr

/-- How a call of `Start` ends: it returns an error, or it reaches `select {}` and blocks
for ever. -/
inductive StartOutcome where
  | error (msg : String)
  | blocks
deriving DecidableEq, Repr

/-- `sendInitialSessionConfig(conn)`.  `marshalErr` is the error of `json.Marshal`, and
`writeErr` the error of `conn.WriteMessage`, `none` for nil.  The result is the effects
and the returned error. -/
def sendInitialSessionConfig (marshalErr writeErr : Option String) :
    List StartEffect × Option String :=
  match marshalErr with
  | some e => ([], some ("error marshalling session update: " ++ e))
  | none =>
    match writeErr with
    | some e => ([StartEffect.writeSessionUpdate], some ("error sending session update: " ++ e))
    | none => ([StartEffect.writeSessionUpdate], none)

/-- `OpenAIRealtimeClient.Start`: the effects in the order they happen, and the outcome. -/
def OpenAIRealtimeClient.Start (c : OpenAIRealtimeClient) (marshalErr writeErr : Option String) :
    List StartEffect × StartOutcome :=
  if c.audioOutput = none then
    ([], StartOutcome.error "audio output channel is not attached")
  else if c.audioInput = none then
    ([], StartOutcome.error "audio input channel is not attached")
  else
    match sendInitialSessionConfig marshalErr writeErr with
    | (effects, some err) =>
      (effects, StartOutcome.error ("failed to send initial session config: " ++ err))
    | (effects, none) =>
      (effects ++ [StartEffect.goListenForEvents, StartEffect.goListenForAudioInput],
        StartOutcome.blocks)

/-- What one pass of the `for` loop of `listenForEvents` is given by the connection. -/
inductive Frame where
  | nextReaderError
  | readAllError
  | message (m : Message)
deriving DecidableEq, Repr

/-- The result of one pass of the loop of `listenForEvents`: the client afterwards, the
messages for which `go handleResponseAudioDelta(c, message)` was executed, and whether the
loop goes on (`false` when the function returns). -/
structure EventStep where
  client : OpenAIRealtimeClient
  spawned : List Message
  continues : Bool
deriving DecidableEq, Repr

/-- The statement `switch data["type"] { ... }` of `listenForEvents`, cases in source
order. -/
def dispatch (c : OpenAIRealtimeClient) (m : Message) (t : Iface) : EventStep :=
  if t = Iface.str "response.audio.delta" then
    { client := { c with assistantIsTalking := true }, spawned := [m], continues := true }
  else if t = Iface.str "response.created" then
    { client := { c with assistantIsTalking := true }, spawned := [], continues := true }
  else if t = Iface.str "response.audio.done" then
    { client := { c with assistantIsTalking := false }, spawned := [], continues := true }
  else if t = Iface.str "response.done" then
    { client := { c with assistantIsTalking := false }, spawned := [], continues := true }
  else if t = Iface.str "conversation.item.created" then
    { client := { c with assistantIsTalking := true }, spawned := [], continues := true }
  else
    { client := c, spawned := [], continues := true }

/-- One pass of the `for` loop of `listenForEvents`. -/
def listenForEventsStep (c : OpenAIRealtimeClient) : Frame → EventStep
  | Frame.nextReaderError => { client := c, spawned := [], continues := false }
  | Frame.readAllError => { client := c, spawned := [], continues := false }
  | Frame.message m =>
    match m.dataType with
    | none => { client := c, spawned := [], continues := true }
    | some t => dispatch c m t

/-- The loop of `listenForEvents` over the frames the connection delivers: the client at
the end and the handlers spawned, in order. -/
def listenForEvents (c : OpenAIRealtimeClient) : List Frame → OpenAIRealtimeClient × List Message
  | [] => (c, [])
  | f :: rest =>
    let r := listenForEventsStep c f
    if r.continues then
      let p := listenForEvents r.client rest
      (p.1, r.spawned ++ p.2)
    else (r.client, r.spawned)

/-- The struct `InputAudioBufferAppend` (`model.go`); the field `Type` is spelled
`Type_`. -/
structure InputAudioBufferAppend where
  EventID : String
  Type_ : String
  Audio : String
deriving DecidableEq, Repr

/-- The loop of `listenForAudioInput` over the chunks received from `c.audioInput`.  Each
chunk comes with the value of `c.assistantIsTalking` that the loop reads for it (the
inbound loop may change the field between two chunks); `k` counts the calls of
`uuid.NewString()` made so far.  The result is the events given to `c.sendEvent`, in
order; `sendEvent` marshals each one and writes it as one text message, and the loop drops
the error it returns. -/
def listenForAudioInput (uuid : Nat → String) : Nat → List (List Nat × Bool) →
    List InputAudioBufferAppend
  | _, [] => []
  | k, (audio, talking) :: rest =>
    if !talking then
      { EventID := uuid k, Type_ := "input_audio_buffer.append",
        Audio := EncodeToString audio } :: listenForAudioInput uuid (k + 1) rest
    else listenForAudioInput uuid k rest

/-- `handleResponseAudioDelta(client, b)`: the chunks it sends on `client.audioOutput`,
none when the decoding fails and one otherwise. -/
def handleResponseAudioDelta (b : Message) : List (List Nat) :=
  let r := DecodeString b.Delta
  if r.2 then [] else [r.1]

/-- The five values of `data["type"]` that have a `case` in `listenForEvents`. -/
def recognisedTypes : List Iface :=
  [Iface.str "response.audio.delta", Iface.str "response.created",
   Iface.str "response.audio.done", Iface.str "response.done",
   Iface.str "conversation.item.created"]

/-! ## The `delta` member of an audio delta, and base64 text

What `json.Unmarshal(b, &audioDelta)` binds to the field `Delta`, and the texts that
RFC 4648 calls base64, stated without reference to the decoder. -/

/-- The member `delta` of an inbound JSON message: missing, a JSON string (with its
decoded value), or any other JSON value (`null`, a number, a boolean, an array, an
object). -/
inductive DeltaField where
  | absent
  | string (s : String)
  | other
deriving DecidableEq, Repr

/-- The field `audioDelta.Delta` after `json.Unmarshal(b, &audioDelta)`: the string when
the member is a JSON string; otherwise the field keeps its zero value, the empty string
(for a number, boolean, array or object `Unmarshal` returns an `UnmarshalTypeError`,
which `handleResponseAudioDelta` does not look at). -/
def unmarshalDelta : DeltaField → String
  | DeltaField.string s => s
  | DeltaField.absent => ""
  | DeltaField.other => ""

/-- Membership in the 64-character alphabet of standard base64. -/
def inAlphabet (c : Char) : Bool := encodeStd.contains c

/-- Padded standard base64 text as RFC 4648 section 4 describes it: groups of four
characters of the alphabet, where the last group may end in `=` or in `==`. -/
def validStd : List Char → Bool
  | [] => true
  | a :: b :: c :: d :: rest =>
    inAlphabet a && inAlphabet b &&
      ((inAlphabet c && inAlphabet d && validStd rest)
        || (rest.isEmpty && (d == '=') && (inAlphabet c || c == '=')))
  | _ => false

/-- The text without its carriage returns and line feeds. -/
def stripLineBreaks (l : List Char) : List Char :=
  l.filter (fun c => !(c == '\n' || c == '\r'))

/-- Whether the member `delta` is valid standard base64: a JSON string whose value is
padded standard base64 text. -/
def DeltaField.validBase64 : DeltaField → Bool
  | DeltaField.string s => validStd s.toList
  | DeltaField.absent => false
  | DeltaField.other => false

/-! ## Playback (`pkg/audiooutput`) and the path of an audio delta -/

/-- The `int16` whose bit pattern is the low 16 bits of `n`. -/
def toInt16 (n : Nat) : Int :=
  if n % 65536 < 32768 then ((n % 65536 : Nat) : Int) else ((n % 65536 : Nat) : Int) - 65536

/-- The loop of `bytesToInt16`: `int16(byteArray[i]) | int16(byteArray[i+1])<<8` for
`i = 0, 2, 4, ...`. -/
def bytesToInt16Loop : List Nat → List Int
  | b0 :: b1 :: rest => toInt16 (b0 ||| (b1 <<< 8)) :: bytesToInt16Loop rest
  | _ => []

/-- `bytesToInt16(byteArray)`: an error for an odd length, otherwise the little-endian
samples. -/
def bytesToInt16 (byteArray : List Nat) : Except String (List Int) :=
  if byteArray.length % 2 ≠ 0 then
    Except.error "byte array length must be even for PCM16 data"
  else Except.ok (bytesToInt16Loop byteArray)

/-- The body of the playback loop of `StreamHandler.Play` for one chunk received from
`audioChan`: a chunk that does not convert is logged and skipped, the others are written
to the circular buffer. -/
def playChunk (cb : CircularBuffer) (audioData : List Nat) : Option CircularBuffer :=
  match bytesToInt16 audioData with
  | Except.error _ => some cb
  | Except.ok int16Data => cb.Write int16Data

/-- The playback loop of `StreamHandler.Play` over the chunks it receives, in order. -/
def playLoop (cb : CircularBuffer) : List (List Nat) → Option CircularBuffer
  | [] => some cb
  | audioData :: rest => (playChunk cb audioData).bind (fun cb1 => playLoop cb1 rest)

/-- The arguments of the calls `circularBuffer.Write(int16Data)` that the playback loop
makes for the chunks it receives, in order. -/
def playWrites (chunks : List (List Nat)) : List (List Int) :=
  chunks.filterMap (fun audioData =>
    match bytesToInt16 audioData with
    | Except.error _ => none
    | Except.ok int16Data => some int16Data)

/-- The path of inbound audio, from the connection to the playback loop.  `inbound` holds
the messages the connection has still to deliver, `handlers` the messages whose
`go handleResponseAudioDelta(c, message)` task has been started and has not finished, and
`received` the chunks the playback loop has taken from the channel, in order. -/
structure Pipeline where
  inbound : List Message
  client : OpenAIRealtimeClient
  handlers : List Message
  received : List (List Nat)

/-- The pipeline when `msgs` are about to arrive at client `c`. -/
def Pipeline.init (c : OpenAIRealtimeClient) (msgs : List Message) : Pipeline :=
  { inbound := msgs, client := c, handlers := [], received := [] }

/-- One scheduling step.  Either the inbound loop makes one pass on the next message,
starting the handler tasks of that pass, or any one of the started handler tasks runs to
its end: it sends its chunk, if the decoding succeeds, on the unbuffered channel, where
the playback loop receives it.  The Go scheduler fixes no order among runnable tasks, so
every started handler may be the next to send. -/
inductive Pipeline.Step : Pipeline → Pipeline → Prop where
  | receive (m : Message) (rest : List Message) (c : OpenAIRealtimeClient)
      (handlers : List Message) (received : List (List Nat)) :
      Pipeline.Step
        { inbound := m :: rest, client := c, handlers := handlers, received := received }
        { inbound := rest, client := (listenForEventsStep c (Frame.message m)).client,
          handlers := handlers ++ (listenForEventsStep c (Frame.message m)).spawned,
          received := received }
  | finish (m : Message) (before after inbound : List Message) (c : OpenAIRealtimeClient)
      (received : List (List Nat)) :
      Pipeline.Step
        { inbound := inbound, client := c, handlers := before ++ m :: after,
          received := received }
        { inbound := inbound, client := c, handlers := before ++ after,
          received := received ++ handleResponseAudioDelta m }

/-- A run: any number of scheduling steps. -/
def Pipeline.Run : Pipeline → Pipeline → Prop := Relation.ReflTransGen Pipeline.Step

/-- The decoded chunks of the messages `msgs` in the order of their arrival: the chunks
that the handlers started by the inbound loop send, handler after handler. -/
def arrivalChunks (c : OpenAIRealtimeClient) (msgs : List Message) : List (List Nat) :=
  (listenForEvents c (msgs.map Frame.message)).2.flatMap handleResponseAudioDelta

/-! ## PCM16 capture encoding (`pkg/audioinput/util.go`), reference models, call sequences -/

/-- `binary.LittleEndian.PutUint16(bs, uint16(v))`, which `binary.Write` performs for an
`int16`: the low byte of the 16-bit pattern of `v`, then the high byte. -/
def putUint16 (v : Int) : List Nat :=
  let u := (v % 65536).toNat
  [u % 256, (u >>> 8) % 256]

/-- `int16ToLittleEndian(data)`: the two bytes of every sample, appended in order. -/
def int16ToLittleEndian : List Int → List Nat
  | [] => []
  | v :: rest => putUint16 v ++ int16ToLittleEndian rest

/-- Reference model of `Write`, following the words of the specification: the unread
content after writing `data` to a buffer of size `C` with unread content `q` is the last
`min (len q + len data) (C - 1)` elements of `q ++ data`. -/
def writeModel (C : Nat) (q data : List Int) : List Int :=
  lastN (min (q.length + data.length) (C - 1)) (q ++ data)

/-- `Write(data)` with the number of executions of the loop body counted: the buffer
afterwards and the number of iterations of `for _, sample := range data`. -/
def CircularBuffer.writeIterations (cb : CircularBuffer) :
    List Int → Option (CircularBuffer × Nat)
  | [] => some (cb, 0)
  | sample :: rest =>
    (cb.writeSample sample).bind (fun cb1 =>
      (cb1.writeIterations rest).map (fun r => (r.1, r.2 + 1)))

/-- A call of one of the two methods of the buffer, with its argument. -/
inductive Call where
  | Write (data : List Int)
  | Read (out : List Int)
deriving DecidableEq, Repr

/-- The length of the argument of a call: `len(data)` or `len(out)`. -/
def Call.argLength : Call → Nat
  | Call.Write data => data.length
  | Call.Read out => out.length

/-- One call: the buffer afterwards and the number of loop iterations made.  For `Read`
this is the returned `count`, which both loops increment once in every iteration. -/
def CircularBuffer.call (cb : CircularBuffer) : Call → Option (CircularBuffer × Nat)
  | Call.Write data => cb.writeIterations data
  | Call.Read out => (cb.Read out).map (fun r => (r.1, r.2.2))

/-- A sequence of calls: the buffer at the end and the iteration count of every call, or
`none` as soon as one call panics. -/
def CircularBuffer.calls (cb : CircularBuffer) : List Call → Option (CircularBuffer × List Nat)
  | [] => some (cb, [])
  | c :: rest =>
    (cb.call c).bind (fun r =>
      (r.1.calls rest).map (fun p => (p.1, r.2 :: p.2)))

/-! ## The circular buffer: lemmas -/

theorem mod_of_lt_two_mul (a C : Nat) (h : a < 2 * C) :
    a % C = if a < C then a else a - C := by
  split
  · exact Nat.mod_eq_of_lt (by assumption)
  · rename_i h1
    have h2 : a = (a - C) + C := by omega
    rw [h2, Nat.add_mod_right, Nat.mod_eq_of_lt (by omega)]
    omega

theorem succ_mod (s C : Nat) (hs : s < C) :
    (s + 1) % C = if s + 1 < C then s + 1 else 0 := by
  rw [mod_of_lt_two_mul _ _ (by omega)]
  split <;> omega

theorem add_mod_index (s i C : Nat) (hs : s < C) (hi : i < C) :
    (s + i) % C = if s + i < C then s + i else s + i - C :=
  mod_of_lt_two_mul _ _ (by omega)

theorem available_eq (cb : CircularBuffer) (h : cb.WellFormed) :
    cb.available = if cb.start ≤ cb.end_ then cb.end_ - cb.start
      else cb.end_ + cb.size - cb.start := by
  obtain ⟨h1, _, h3, h4⟩ := h
  unfold CircularBuffer.available
  rw [mod_of_lt_two_mul _ _ (by omega)]
  split <;> split <;> omega

theorem available_lt (cb : CircularBuffer) (h : cb.WellFormed) : cb.available < cb.size := by
  unfold CircularBuffer.available
  exact Nat.mod_lt _ h.1

theorem readFill_eq (pre rest : List Int) :
    readFill (pre ++ rest) pre.length rest.length
      = (pre ++ List.replicate rest.length 0, pre.length + rest.length) := by
  induction rest generalizing pre with
  | nil => simp [readFill]
  | cons r rs ih =>
    have h := ih (pre ++ [0])
    simp only [List.append_assoc, List.singleton_append, List.length_append, List.length_singleton] at h
    simp only [readFill, List.length_cons, List.set_append_right _ _ (le_refl _), Nat.sub_self, List.set_cons_zero]
    rw [h]
    simp [List.replicate_succ]
    omega

theorem advance_wellFormed (cb : CircularBuffer) (h : cb.WellFormed) (m : Nat) :
    (cb.advance m).WellFormed := by
  obtain ⟨h1, h2, h3, h4⟩ := h
  exact ⟨h1, h2, Nat.mod_lt _ h1, h4⟩

theorem available_advance_one (cb : CircularBuffer) (h : cb.WellFormed)
    (hne : cb.start ≠ cb.end_) : (cb.advance 1).available + 1 = cb.available := by
  have h' := advance_wellFormed cb h 1
  rw [available_eq _ h', available_eq _ h]
  obtain ⟨h1, h2, h3, h4⟩ := h
  simp only [CircularBuffer.advance]
  rw [succ_mod _ _ h3]
  split <;> split <;> split <;> omega

theorem available_eq_zero (cb : CircularBuffer) (h : cb.WellFormed)
    (he : cb.start = cb.end_) : cb.available = 0 := by
  rw [available_eq _ h]; split <;> omega

theorem readCopy_eq (rest : List Int) : ∀ (cb : CircularBuffer) (_ : cb.WellFormed)
    (pre : List Int),
    cb.readCopy (pre ++ rest) pre.length rest.length
      = some (cb.advance (min rest.length cb.available),
          pre ++ (List.range (min rest.length cb.available)).map
              (fun i => cb.buffer.getD ((cb.start + i) % cb.size) 0)
            ++ rest.drop (min rest.length cb.available),
          pre.length + min rest.length cb.available) := by
  induction rest with
  | nil =>
    intro cb h pre
    obtain ⟨h1, h2, h3, h4⟩ := h
    simp [CircularBuffer.readCopy, CircularBuffer.advance, Nat.mod_eq_of_lt h3]
  | cons r rs ih =>
    intro cb h pre
    by_cases hne : cb.start = cb.end_
    · have h0 := available_eq_zero cb h hne
      obtain ⟨h1, h2, h3, h4⟩ := h
      simp [CircularBuffer.readCopy, hne, h0, CircularBuffer.advance, Nat.mod_eq_of_lt h4]
      cases cb; simp_all
    · have hav := available_advance_one cb h hne
      have hwf := advance_wellFormed cb h 1
      obtain ⟨h1, h2, h3, h4⟩ := h
      have hlt : cb.start < cb.buffer.length := by omega
      have hm : min (rs.length + 1) cb.available = min rs.length (cb.advance 1).available + 1 := by
        omega
      have hih := ih (cb.advance 1) hwf (pre ++ [cb.buffer[cb.start]])
      simp only [CircularBuffer.readCopy, ne_eq, hne, not_false_eq_true, if_true,
        List.getElem?_eq_getElem hlt, List.length_cons, Nat.pos_iff_ne_zero.mp h1]
      have hset : (pre ++ r :: rs).set pre.length cb.buffer[cb.start]
          = (pre ++ [cb.buffer[cb.start]]) ++ rs := by
        simp [List.set_append_right _ _ (le_refl _)]
      have hlen : pre.length + 1 = (pre ++ [cb.buffer[cb.start]]).length := by simp
      rw [if_neg (by simp), hset, hlen]
      change (cb.advance 1).readCopy _ _ _ = _
      rw [hih, hm]
      have hidx : ∀ i, ((cb.advance 1).start + i) % (cb.advance 1).size
          = (cb.start + (i + 1)) % cb.size := by
        intro i
        simp only [CircularBuffer.advance, Nat.mod_add_mod]
        congr 1; omega
      have hadv : (cb.advance 1).advance (min rs.length (cb.advance 1).available)
          = cb.advance (min rs.length (cb.advance 1).available + 1) := by
        simp only [CircularBuffer.advance, Nat.mod_add_mod]
        congr 2; omega
      have hv : cb.buffer[cb.start] = cb.buffer.getD ((cb.start + 0) % cb.size) 0 := by
        simp [Nat.mod_eq_of_lt h3, List.getD_eq_getElem?_getD, List.getElem?_eq_getElem hlt]
      rw [hadv, List.range_succ_eq_map, List.map_cons, List.map_map, ← hv]
      simp only [hidx, List.drop_succ_cons, List.length_append, List.length_singleton,
        List.append_assoc, List.singleton_append, Function.comp_def]
      congr 3
      omega

theorem Read_eq (cb : CircularBuffer) (h : cb.WellFormed) (out : List Int) :
    cb.Read out
      = some (cb.advance (min out.length cb.available),
          (List.range (min out.length cb.available)).map
              (fun i => cb.buffer.getD ((cb.start + i) % cb.size) 0)
            ++ List.replicate (out.length - min out.length cb.available) 0,
          out.length) := by
  have h1 := readCopy_eq out cb h []
  simp only [List.nil_append, List.length_nil, Nat.zero_add] at h1
  simp only [CircularBuffer.Read, h1]
  have h2 := readFill_eq ((List.range (min out.length cb.available)).map
              (fun i => cb.buffer.getD ((cb.start + i) % cb.size) 0))
              (out.drop (min out.length cb.available))
  simp only [List.length_map, List.length_range, List.length_drop] at h2
  simp only [List.length_append, List.length_map, List.length_range, List.length_drop,
    Nat.add_sub_cancel_left, h2]
  congr 3
  omega

theorem index_eq_end_iff (cb : CircularBuffer) (h : cb.WellFormed) (i : Nat)
    (hi : i < cb.size) : (cb.start + i) % cb.size = cb.end_ ↔ i = cb.available := by
  rw [available_eq _ h]
  obtain ⟨h1, h2, h3, h4⟩ := h
  rw [add_mod_index _ _ _ h3 hi]
  split <;> split <;> omega

theorem unread_length (cb : CircularBuffer) : cb.unread.length = cb.available := by
  simp [CircularBuffer.unread]

theorem unread_getElem? (cb : CircularBuffer) (i : Nat) :
    cb.unread[i]? = if i < cb.available
      then some (cb.buffer.getD ((cb.start + i) % cb.size) 0) else none := by
  simp only [CircularBuffer.unread, List.getElem?_map, List.getElem?_range]
  split <;> simp_all [List.getElem?_range]

theorem getD_set_end (cb : CircularBuffer) (h : cb.WellFormed) (x : Int) (i : Nat)
    (hi : i < cb.size) :
    (cb.buffer.set cb.end_ x).getD ((cb.start + i) % cb.size) 0
      = if i = cb.available then x else cb.buffer.getD ((cb.start + i) % cb.size) 0 := by
  have hidx := index_eq_end_iff cb h i hi
  obtain ⟨h1, h2, h3, h4⟩ := h
  simp only [List.getD_eq_getElem?_getD, List.getElem?_set]
  by_cases hc : i = cb.available
  · have := hidx.mpr hc
    rw [this, if_pos hc]
    simp [h2, h4]
  · have : ¬ (cb.end_ = (cb.start + i) % cb.size) := fun e => hc (hidx.mp e.symm)
    simp [hc, this]

theorem snoc_getElem? (cb : CircularBuffer) (x : Int) (i : Nat) :
    (cb.unread ++ [x])[i]? = if i < cb.available
      then some (cb.buffer.getD ((cb.start + i) % cb.size) 0)
      else if i = cb.available then some x else none := by
  simp only [List.getElem?_append, unread_length, unread_getElem?]
  split
  · rfl
  · by_cases hc : i = cb.available
    · simp [hc]
    · have : i - cb.available ≠ 0 := by omega
      simp [hc, List.getElem?_cons, this]

theorem writeSample_spec (cb : CircularBuffer) (h : cb.WellFormed) (x : Int) :
    ∃ cb1, cb.writeSample x = some cb1 ∧ cb1.WellFormed ∧ cb1.size = cb.size
      ∧ cb1.unread = lastN (cb.size - 1) (cb.unread ++ [x]) := by
  have hav := available_lt cb h
  have hidx := index_eq_end_iff cb h
  have haveq := available_eq cb h
  have hset := getD_set_end cb h x
  obtain ⟨h1, h2, h3, h4⟩ := h
  have hsz : cb.size ≠ 0 := by omega
  have he := succ_mod _ _ h4
  have hs := succ_mod _ _ h3
  by_cases hfull : (cb.end_ + 1) % cb.size = cb.start
  · have hA : cb.available = cb.size - 1 := by
      generalize (cb.end_ + 1) % cb.size = E at he hfull
      split_ifs at he haveq <;> omega
    refine ⟨⟨cb.buffer.set cb.end_ x, cb.size, (cb.start + 1) % cb.size,
      (cb.end_ + 1) % cb.size⟩, ?_, ?_, rfl, ?_⟩
    · simp [CircularBuffer.writeSample, h2, h4, hsz, hfull]
    · exact ⟨h1, by simp [h2], Nat.mod_lt _ h1, Nat.mod_lt _ h1⟩
    · have hwf1 : CircularBuffer.WellFormed ⟨cb.buffer.set cb.end_ x, cb.size,
          (cb.start + 1) % cb.size, (cb.end_ + 1) % cb.size⟩ :=
        ⟨h1, by simp [h2], Nat.mod_lt _ h1, Nat.mod_lt _ h1⟩
      have hA1 := available_eq _ hwf1
      simp only [] at hA1
      apply List.ext_getElem?
      intro j
      rw [unread_getElem?]
      simp only [lastN, List.getElem?_drop, List.length_append, unread_length,
        List.length_singleton, snoc_getElem?]
      simp only [Nat.mod_add_mod]
      have hA2 : CircularBuffer.available ⟨cb.buffer.set cb.end_ x, cb.size,
          (cb.start + 1) % cb.size, (cb.end_ + 1) % cb.size⟩ = cb.size - 1 := by
        rw [hA1]
        generalize (cb.end_ + 1) % cb.size = E at he hfull hA1 ⊢
        generalize (cb.start + 1) % cb.size = S at hs hA1 ⊢
        split_ifs at he hs haveq ⊢ <;> omega
      have hd : cb.available + 1 - (cb.size - 1) = 1 := by omega
      rw [hA2, hd]
      by_cases hj : j < cb.size - 1
      · rw [show cb.start + 1 + j = cb.start + (1 + j) by omega, hset (1 + j) (by omega)]
        rw [if_pos hj]
        by_cases hj1 : 1 + j = cb.available
        · rw [if_pos hj1, if_neg (by omega), if_pos hj1]
        · rw [if_neg hj1, if_pos (by omega)]
      · rw [if_neg hj, if_neg (by omega), if_neg (by omega)]
  · have hA : cb.available + 1 < cb.size := by
      generalize (cb.end_ + 1) % cb.size = E at he hfull
      split_ifs at he haveq <;> omega
    refine ⟨⟨cb.buffer.set cb.end_ x, cb.size, cb.start, (cb.end_ + 1) % cb.size⟩,
      ?_, ?_, rfl, ?_⟩
    · simp [CircularBuffer.writeSample, h2, h4, hsz, hfull]
    · exact ⟨h1, by simp [h2], h3, Nat.mod_lt _ h1⟩
    · have hwf1 : CircularBuffer.WellFormed ⟨cb.buffer.set cb.end_ x, cb.size,
          cb.start, (cb.end_ + 1) % cb.size⟩ :=
        ⟨h1, by simp [h2], h3, Nat.mod_lt _ h1⟩
      have hA1 := available_eq _ hwf1
      simp only [] at hA1
      apply List.ext_getElem?
      intro j
      rw [unread_getElem?]
      simp only [lastN, List.getElem?_drop, List.length_append, unread_length,
        List.length_singleton, snoc_getElem?]
      have hA2 : CircularBuffer.available ⟨cb.buffer.set cb.end_ x, cb.size,
          cb.start, (cb.end_ + 1) % cb.size⟩ = cb.available + 1 := by
        rw [hA1]
        generalize (cb.end_ + 1) % cb.size = E at he hfull hA1 ⊢
        split_ifs at he haveq ⊢ <;> omega
      have hd : cb.available + 1 - (cb.size - 1) = 0 := by omega
      rw [hA2, hd, Nat.zero_add]
      by_cases hj : j < cb.available + 1
      · rw [hset j (by omega), if_pos hj]
        by_cases hj1 : j = cb.available
        · rw [if_pos hj1, if_neg (by omega), if_pos hj1]
        · rw [if_neg hj1, if_pos (by omega)]
      · rw [if_neg hj, if_neg (by omega), if_neg (by omega)]

theorem lastN_of_length_le (k : Nat) (l : List Int) (h : l.length ≤ k) : lastN k l = l := by
  simp [lastN, Nat.sub_eq_zero_of_le h]

theorem lastN_lastN_append (k : Nat) (a b : List Int) :
    lastN k (lastN k a ++ b) = lastN k (a ++ b) := by
  by_cases h : a.length ≤ k
  · rw [lastN_of_length_le k a h]
  · simp only [lastN, List.drop_append_eq_append_drop, List.length_append, List.length_drop,
      List.drop_drop]
    congr 2 <;> omega

theorem Write_spec (data : List Int) : ∀ (cb : CircularBuffer), cb.WellFormed →
    ∃ cb1, cb.Write data = some cb1 ∧ cb1.WellFormed ∧ cb1.size = cb.size
      ∧ cb1.unread = lastN (cb.size - 1) (cb.unread ++ data) := by
  induction data with
  | nil =>
    intro cb h
    refine ⟨cb, rfl, h, rfl, ?_⟩
    have := available_lt cb h
    rw [List.append_nil, lastN_of_length_le]
    rw [unread_length]; omega
  | cons x rest ih =>
    intro cb h
    obtain ⟨cb1, e1, w1, s1, u1⟩ := writeSample_spec cb h x
    obtain ⟨cb2, e2, w2, s2, u2⟩ := ih cb1 w1
    refine ⟨cb2, by simp [CircularBuffer.Write, e1, e2], w2, by omega, ?_⟩
    rw [u2, u1, s1, lastN_lastN_append]
    simp

theorem Write_append (a b : List Int) : ∀ cb : CircularBuffer,
    cb.Write (a ++ b) = (cb.Write a).bind (fun c => c.Write b) := by
  induction a with
  | nil => intro cb; rfl
  | cons x rest ih =>
    intro cb
    simp only [List.cons_append, CircularBuffer.Write]
    cases cb.writeSample x with
    | none => rfl
    | some c => simp [ih]

theorem Writes_eq_Write (writes : List (List Int)) : ∀ cb : CircularBuffer,
    cb.Writes writes = cb.Write writes.flatten := by
  induction writes with
  | nil => intro cb; rfl
  | cons d rest ih =>
    intro cb
    simp only [CircularBuffer.Writes, List.flatten_cons, Write_append]
    cases cb.Write d with
    | none => rfl
    | some c => simp [ih]

theorem NewCircularBuffer_wellFormed (C : Nat) (hC : 1 ≤ C) :
    (NewCircularBuffer C).WellFormed :=
  ⟨hC, by simp [NewCircularBuffer], hC, hC⟩

theorem NewCircularBuffer_unread (C : Nat) : (NewCircularBuffer C).unread = [] := by
  simp [NewCircularBuffer, CircularBuffer.unread, CircularBuffer.available]

theorem Read_unread (cb : CircularBuffer) (h : cb.WellFormed) (out : List Int) :
    ∃ cb1, cb.Read out
      = some (cb1, cb.unread.take out.length
          ++ List.replicate (out.length - cb.unread.length) 0, out.length) := by
  refine ⟨cb.advance (min out.length cb.available), ?_⟩
  rw [Read_eq cb h out, unread_length]
  simp only [CircularBuffer.unread, ← List.map_take, List.take_range]
  rw [show out.length - min out.length cb.available = out.length - cb.available by omega]

/-! ## The circular buffer: the claims -/

/-- Claim C1. For a buffer of size `C ≥ 1` whose backing store has length `C` and whose
cursors are in range, `Read` into a slice of length `n` returns `n`; with
`m = min n available`, the first `m` positions of the slice hold the unread samples in
order from the read cursor, the other `n - m` positions hold 0, the read cursor has
advanced by `m` modulo `C`, and nothing else of the buffer has changed. -/
theorem Read_fills_all_positions (cb : CircularBuffer) (out : List Int)
    (hC : 1 ≤ cb.size) (hbuf : cb.buffer.length = cb.size)
    (hstart : cb.start < cb.size) (hend : cb.end_ < cb.size) :
    cb.Read out
      = some
          ({ buffer := cb.buffer, size := cb.size,
             start := (cb.start + min out.length cb.available) % cb.size, end_ := cb.end_ },
           (List.range (min out.length cb.available)).map
               (fun i => cb.buffer.getD ((cb.start + i) % cb.size) 0)
             ++ List.replicate (out.length - min out.length cb.available) 0,
           out.length) :=
  Read_eq cb ⟨hC, hbuf, hstart, hend⟩ out

/-- Witness of C1: a wrapped buffer of size 5 holding three unread samples, read into a
slice of length 4. -/
theorem Read_fills_all_positions_witness :
    (⟨[10, 20, 30, 40, 50], 5, 3, 1⟩ : CircularBuffer).Read [9, 9, 9, 9]
      = some (⟨[10, 20, 30, 40, 50], 5, 1, 1⟩, [40, 50, 10, 0], 4) :=
  Read_fills_all_positions ⟨[10, 20, 30, 40, 50], 5, 3, 1⟩ [9, 9, 9, 9]
    (by decide) (by decide) (by decide) (by decide)

/-- Counterexample to C2 as stated: three samples written to a fresh buffer of capacity 3
(`n = C`) are not read back; the first sample is gone and the read is padded. -/
theorem write_full_capacity_not_read_back :
    (1 ≤ 3 ∧ ([[1, 2], [3]] : List (List Int)).flatten.length ≤ 3)
      ∧ (∃ cb cb1, (NewCircularBuffer 3).Writes [[1, 2], [3]] = some cb
          ∧ cb.Read [0, 0, 0] = some (cb1, [2, 3, 0], 3))
      ∧ ¬ ∃ cb cb1, (NewCircularBuffer 3).Writes [[1, 2], [3]] = some cb
          ∧ cb.Read [0, 0, 0] = some (cb1, ([[1, 2], [3]] : List (List Int)).flatten, 3) := by
  refine ⟨by decide, ⟨⟨[1, 2, 3], 3, 1, 0⟩, ⟨[1, 2, 3], 3, 0, 0⟩, by decide, by decide⟩, ?_⟩
  rintro ⟨cb, cb1, h1, h2⟩
  have e : (NewCircularBuffer 3).Writes [[1, 2], [3]] = some ⟨[1, 2, 3], 3, 1, 0⟩ := by decide
  rw [e] at h1
  cases h1
  have e2 : (⟨[1, 2, 3], 3, 1, 0⟩ : CircularBuffer).Read [0, 0, 0]
      = some (⟨[1, 2, 3], 3, 0, 0⟩, [2, 3, 0], 3) := by decide
  rw [e2] at h2
  simp at h2

/-- Claim C2, amended. For every capacity `C ≥ 1` and every sequence of `Write` calls on a
fresh `NewCircularBuffer(C)` whose total number of samples `n` satisfies `n ≤ C - 1`, all
the writes succeed and a following `Read` into a slice of length `n` returns `n` and
fills the slice with exactly the concatenation of the written samples, in order. -/
theorem writes_below_capacity_read_back (C : Nat) (writes : List (List Int))
    (out : List Int) (hC : 1 ≤ C) (hn : writes.flatten.length ≤ C - 1)
    (hout : out.length = writes.flatten.length) :
    ∃ cb cb1, (NewCircularBuffer C).Writes writes = some cb
      ∧ cb.Read out = some (cb1, writes.flatten, writes.flatten.length) := by
  obtain ⟨cb, e, w, _, u⟩ :=
    Write_spec writes.flatten (NewCircularBuffer C) (NewCircularBuffer_wellFormed C hC)
  rw [NewCircularBuffer_unread, List.nil_append] at u
  have hsz : (NewCircularBuffer C).size = C := rfl
  rw [hsz, lastN_of_length_le _ _ hn] at u
  obtain ⟨cb1, r⟩ := Read_unread cb w out
  refine ⟨cb, cb1, by rw [Writes_eq_Write, e], ?_⟩
  rw [r, u, hout]
  simp

/-- Witness of C2 (amended): two writes of three samples in total into a buffer of
capacity 4. -/
theorem writes_below_capacity_read_back_witness :
    ∃ cb cb1, (NewCircularBuffer 4).Writes [[1, 2], [3]] = some cb
      ∧ cb.Read [9, 9, 9] = some (cb1, ([[1, 2], [3]] : List (List Int)).flatten,
          ([[1, 2], [3]] : List (List Int)).flatten.length) :=
  writes_below_capacity_read_back 4 [[1, 2], [3]] [9, 9, 9] (by decide) (by decide)
    (by decide)

/-- Counterexample to C3 as stated: with `C = 3` and `k = 1`, after writing the four
samples 1, 2, 3, 4 the unread content is `[3, 4]`, not the last three samples, and a
`Read` of length 3 returns `[3, 4, 0]`, not samples 2 to 4. -/
theorem overflow_evicts_one_more_sample :
    (1 ≤ 3 ∧ 1 ≤ 1 ∧ ([[1, 2, 3, 4]] : List (List Int)).flatten.length = 3 + 1)
      ∧ (∃ cb cb1, (NewCircularBuffer 3).Writes [[1, 2, 3, 4]] = some cb
          ∧ cb.unread = [3, 4] ∧ cb.Read [0, 0, 0] = some (cb1, [3, 4, 0], 3))
      ∧ ¬ ∃ cb cb1, (NewCircularBuffer 3).Writes [[1, 2, 3, 4]] = some cb
          ∧ cb.unread = [2, 3, 4] ∧ cb.Read [0, 0, 0] = some (cb1, [2, 3, 4], 3) := by
  refine ⟨by decide, ⟨⟨[4, 2, 3], 3, 2, 1⟩, ⟨[4, 2, 3], 3, 1, 1⟩, by decide, by decide,
    by decide⟩, ?_⟩
  rintro ⟨cb, cb1, h1, h2, -⟩
  have e : (NewCircularBuffer 3).Writes [[1, 2, 3, 4]] = some ⟨[4, 2, 3], 3, 2, 1⟩ := by
    decide
  rw [e] at h1
  cases h1
  revert h2
  decide

/-- Claim C3, amended. For every capacity `C ≥ 1` and every `k ≥ 1`, after writing `C + k`
samples in total to a fresh `NewCircularBuffer(C)`, exactly the oldest `k + 1` samples
are evicted: the unread content is the last `C - 1` samples written, in order, so a
`Read` of length `C` returns samples number `k + 2 .. C + k` followed by a single 0, and
none of the first `k + 1`. -/
theorem overflow_keeps_last_size_minus_one (C k : Nat) (writes : List (List Int))
    (out : List Int) (hC : 1 ≤ C) (hk : 1 ≤ k) (hn : writes.flatten.length = C + k)
    (hout : out.length = C) :
    ∃ cb cb1, (NewCircularBuffer C).Writes writes = some cb
      ∧ cb.unread = writes.flatten.drop (k + 1)
      ∧ cb.unread.length = C - 1
      ∧ cb.Read out = some (cb1, writes.flatten.drop (k + 1) ++ [0], C) := by
  obtain ⟨cb, e, w, _, u⟩ :=
    Write_spec writes.flatten (NewCircularBuffer C) (NewCircularBuffer_wellFormed C hC)
  rw [NewCircularBuffer_unread, List.nil_append] at u
  have hsz : (NewCircularBuffer C).size = C := rfl
  have hd : writes.flatten.length - (C - 1) = k + 1 := by omega
  rw [hsz, lastN, hd] at u
  have hl : cb.unread.length = C - 1 := by rw [u, List.length_drop]; omega
  obtain ⟨cb1, r⟩ := Read_unread cb w out
  refine ⟨cb, cb1, by rw [Writes_eq_Write, e], u, hl, ?_⟩
  rw [r, hl, hout, List.take_of_length_le (by omega), u,
    show C - (C - 1) = 1 by omega]
  rfl

/-- Witness of C3 (amended): capacity 3, `k = 2`, five samples in two writes. -/
theorem overflow_keeps_last_size_minus_one_witness :
    ∃ cb cb1, (NewCircularBuffer 3).Writes [[1, 2, 3], [4, 5]] = some cb
      ∧ cb.unread = ([[1, 2, 3], [4, 5]] : List (List Int)).flatten.drop (2 + 1)
      ∧ cb.unread.length = 3 - 1
      ∧ cb.Read [0, 0, 0]
          = some (cb1, ([[1, 2, 3], [4, 5]] : List (List Int)).flatten.drop (2 + 1) ++ [0], 3) :=
  overflow_keeps_last_size_minus_one 3 2 [[1, 2, 3], [4, 5]] [0, 0, 0] (by decide)
    (by decide) (by decide) (by decide)

/-- Counterexample to C4 as stated: in the scenario the second write leaves the nine
samples 7 to 15 unread, and the read of 10 returns them followed by a zero; the sample 6
is not there. -/
theorem scenario_final_read_differs :
    (∃ cb1 cb2 cb3 cb4, (NewCircularBuffer 10).Write [1, 2, 3] = some cb1
        ∧ cb1.Read [0, 0, 0, 0, 0] = some (cb2, [1, 2, 3, 0, 0], 5)
        ∧ cb2.Write [4, 5, 6, 7, 8, 9, 10, 11, 12, 13, 14, 15] = some cb3
        ∧ cb3.unread = [7, 8, 9, 10, 11, 12, 13, 14, 15]
        ∧ cb3.Read [0, 0, 0, 0, 0, 0, 0, 0, 0, 0]
            = some (cb4, [7, 8, 9, 10, 11, 12, 13, 14, 15, 0], 10))
      ∧ ¬ ∃ cb1 cb2 cb3 cb4, (NewCircularBuffer 10).Write [1, 2, 3] = some cb1
        ∧ cb1.Read [0, 0, 0, 0, 0] = some (cb2, [1, 2, 3, 0, 0], 5)
        ∧ cb2.Write [4, 5, 6, 7, 8, 9, 10, 11, 12, 13, 14, 15] = some cb3
        ∧ cb3.unread = [6, 7, 8, 9, 10, 11, 12, 13, 14, 15]
        ∧ cb3.Read [0, 0, 0, 0, 0, 0, 0, 0, 0, 0]
            = some (cb4, [6, 7, 8, 9, 10, 11, 12, 13, 14, 15], 10) := by
  have e1 : (NewCircularBuffer 10).Write [1, 2, 3]
      = some ⟨[1, 2, 3, 0, 0, 0, 0, 0, 0, 0], 10, 0, 3⟩ := by decide
  have e2 : (⟨[1, 2, 3, 0, 0, 0, 0, 0, 0, 0], 10, 0, 3⟩ : CircularBuffer).Read [0, 0, 0, 0, 0]
      = some (⟨[1, 2, 3, 0, 0, 0, 0, 0, 0, 0], 10, 3, 3⟩, [1, 2, 3, 0, 0], 5) := by decide
  have e3 : (⟨[1, 2, 3, 0, 0, 0, 0, 0, 0, 0], 10, 3, 3⟩ : CircularBuffer).Write
      [4, 5, 6, 7, 8, 9, 10, 11, 12, 13, 14, 15]
      = some ⟨[11, 12, 13, 14, 15, 6, 7, 8, 9, 10], 10, 6, 5⟩ := by decide
  have e4 : (⟨[11, 12, 13, 14, 15, 6, 7, 8, 9, 10], 10, 6, 5⟩ : CircularBuffer).unread
      = [7, 8, 9, 10, 11, 12, 13, 14, 15] := by decide
  have e5 : (⟨[11, 12, 13, 14, 15, 6, 7, 8, 9, 10], 10, 6, 5⟩ : CircularBuffer).Read
      [0, 0, 0, 0, 0, 0, 0, 0, 0, 0]
      = some (⟨[11, 12, 13, 14, 15, 6, 7, 8, 9, 10], 10, 5, 5⟩,
          [7, 8, 9, 10, 11, 12, 13, 14, 15, 0], 10) := by decide
  refine ⟨⟨_, _, _, _, e1, e2, e3, e4, e5⟩, ?_⟩
  rintro ⟨cb1, cb2, cb3, cb4, h1, h2, h3, h4, -⟩
  rw [e1] at h1; cases h1
  rw [e2] at h2; cases h2
  rw [e3] at h3; cases h3
  rw [e4] at h4
  revert h4
  decide

/-- Claim C4, amended. On a fresh `NewCircularBuffer(10)`: `Write([1,2,3])` followed by
`Read` into a slice of length 5 yields `[1,2,3,0,0]`; then `Write([4,5,...,15])`
(12 samples) leaves the buffer holding `[7,8,9,10,11,12,13,14,15]`, and a `Read` into a
slice of length 10 yields exactly `[7,8,9,10,11,12,13,14,15,0]`. -/
theorem scenario_capacity_ten (out5 out10 : List Int) (h5 : out5.length = 5)
    (h10 : out10.length = 10) :
    ∃ cb1 cb2 cb3 cb4, (NewCircularBuffer 10).Write [1, 2, 3] = some cb1
      ∧ cb1.Read out5 = some (cb2, [1, 2, 3, 0, 0], 5)
      ∧ cb2.Write [4, 5, 6, 7, 8, 9, 10, 11, 12, 13, 14, 15] = some cb3
      ∧ cb3.unread = [7, 8, 9, 10, 11, 12, 13, 14, 15]
      ∧ cb3.Read out10 = some (cb4, [7, 8, 9, 10, 11, 12, 13, 14, 15, 0], 10) := by
  have e1 : (NewCircularBuffer 10).Write [1, 2, 3]
      = some ⟨[1, 2, 3, 0, 0, 0, 0, 0, 0, 0], 10, 0, 3⟩ := by decide
  have e2 := Read_eq ⟨[1, 2, 3, 0, 0, 0, 0, 0, 0, 0], 10, 0, 3⟩
    ⟨by decide, by decide, by decide, by decide⟩ out5
  have a2 : (⟨[1, 2, 3, 0, 0, 0, 0, 0, 0, 0], 10, 0, 3⟩ : CircularBuffer).available = 3 := by
    decide
  rw [h5, a2] at e2
  have e3 : (⟨[1, 2, 3, 0, 0, 0, 0, 0, 0, 0], 10, 3, 3⟩ : CircularBuffer).Write
      [4, 5, 6, 7, 8, 9, 10, 11, 12, 13, 14, 15]
      = some ⟨[11, 12, 13, 14, 15, 6, 7, 8, 9, 10], 10, 6, 5⟩ := by decide
  have e4 : (⟨[11, 12, 13, 14, 15, 6, 7, 8, 9, 10], 10, 6, 5⟩ : CircularBuffer).unread
      = [7, 8, 9, 10, 11, 12, 13, 14, 15] := by decide
  have e5 := Read_eq ⟨[11, 12, 13, 14, 15, 6, 7, 8, 9, 10], 10, 6, 5⟩
    ⟨by decide, by decide, by decide, by decide⟩ out10
  have a5 : (⟨[11, 12, 13, 14, 15, 6, 7, 8, 9, 10], 10, 6, 5⟩ : CircularBuffer).available
      = 9 := by decide
  rw [h10, a5] at e5
  exact ⟨_, _, _, _, e1, e2, e3, e4, e5⟩

/-- Witness of C4 (amended): output slices holding arbitrary old contents. -/
theorem scenario_capacity_ten_witness :
    ∃ cb1 cb2 cb3 cb4, (NewCircularBuffer 10).Write [1, 2, 3] = some cb1
      ∧ cb1.Read [9, 9, 9, 9, 9] = some (cb2, [1, 2, 3, 0, 0], 5)
      ∧ cb2.Write [4, 5, 6, 7, 8, 9, 10, 11, 12, 13, 14, 15] = some cb3
      ∧ cb3.unread = [7, 8, 9, 10, 11, 12, 13, 14, 15]
      ∧ cb3.Read [8, 8, 8, 8, 8, 8, 8, 8, 8, 8]
          = some (cb4, [7, 8, 9, 10, 11, 12, 13, 14, 15, 0], 10) :=
  scenario_capacity_ten [9, 9, 9, 9, 9] [8, 8, 8, 8, 8, 8, 8, 8, 8, 8] (by decide)
    (by decide)

/-! ## Base64: decoding inverts encoding -/

theorem and_0x3F (v : Nat) : v &&& 0x3F = v % 64 :=
  Nat.and_pow_two_sub_one_eq_mod v 6

theorem decodeMap_getD : ∀ i : Fin 64, decodeMap (encodeStd.getD i.val 'A') = i.val := by
  decide

theorem decodeMap_encodeChar (v : Nat) : decodeMap (encodeChar v) = v % 64 := by
  rw [encodeChar, and_0x3F]
  exact decodeMap_getD ⟨v % 64, Nat.mod_lt _ (by decide)⟩

theorem shiftLeft_or_of_lt (x y i : Nat) (h : y < 2 ^ i) : (x <<< i) ||| y = x * 2 ^ i + y := by
  rw [Nat.shiftLeft_eq, Nat.mul_comm, Nat.mul_add_lt_is_or h]

theorem decodeLoop_digit (v : Nat) (rest : List Char) (j : Nat) (dbuf acc : List Nat) :
    decodeLoop (encodeChar v :: rest) j dbuf acc
      = if j = 3 then decodeLoop rest 0 [] (acc ++ quantumBytes (dbuf ++ [v % 64]) 4)
        else decodeLoop rest (j + 1) (dbuf ++ [v % 64]) acc := by
  have h : decodeMap (encodeChar v) ≠ 0xff := by
    rw [decodeMap_encodeChar]; omega
  rw [decodeLoop, if_pos h, decodeMap_encodeChar]

theorem bytes_value (a b c : Nat) (hb : b < 256) (hc : c < 256) :
    (a <<< 16) ||| (b <<< 8) ||| c = a * 65536 + b * 256 + c := by
  rw [Nat.lor_assoc, shiftLeft_or_of_lt b c 8 (by omega),
    shiftLeft_or_of_lt a _ 16 (by omega)]
  omega

theorem digits_value (d0 d1 d2 d3 : Nat) (h1 : d1 < 64) (h2 : d2 < 64) (h3 : d3 < 64) :
    (d0 <<< 18) ||| (d1 <<< 12) ||| (d2 <<< 6) ||| d3
      = d0 * 262144 + d1 * 4096 + d2 * 64 + d3 := by
  rw [Nat.lor_assoc, Nat.lor_assoc, shiftLeft_or_of_lt d2 d3 6 (by omega),
    shiftLeft_or_of_lt d1 _ 12 (by omega), shiftLeft_or_of_lt d0 _ 18 (by omega)]
  omega

theorem quantumBytes_eq (d0 d1 d2 d3 : Nat) (h1 : d1 < 64) (h2 : d2 < 64) (h3 : d3 < 64)
    (dlen : Nat) :
    quantumBytes [d0, d1, d2, d3] dlen
      = [((d0 * 262144 + d1 * 4096 + d2 * 64 + d3) / 65536) % 256,
          ((d0 * 262144 + d1 * 4096 + d2 * 64 + d3) / 256) % 256,
          (d0 * 262144 + d1 * 4096 + d2 * 64 + d3) % 256].take (dlen - 1) := by
  simp only [quantumBytes, List.getD_cons_zero, List.getD_cons_succ]
  rw [digits_value d0 d1 d2 d3 h1 h2 h3]
  simp [Nat.shiftRight_eq_div_pow]

theorem quantumBytes_two (d0 d1 : Nat) (h1 : d1 < 64) :
    quantumBytes [d0, d1] 2 = [((d0 * 262144 + d1 * 4096) / 65536) % 256] := by
  have h := quantumBytes_eq d0 d1 0 0 h1 (by omega) (by omega) 2
  simp only [quantumBytes, List.getD_cons_zero, List.getD_cons_succ, List.getD_nil] at h ⊢
  rw [h]; simp

theorem quantumBytes_three (d0 d1 d2 : Nat) (h1 : d1 < 64) (h2 : d2 < 64) :
    quantumBytes [d0, d1, d2] 3
      = [((d0 * 262144 + d1 * 4096 + d2 * 64) / 65536) % 256,
          ((d0 * 262144 + d1 * 4096 + d2 * 64) / 256) % 256] := by
  have h := quantumBytes_eq d0 d1 d2 0 h1 h2 (by omega) 3
  simp only [quantumBytes, List.getD_cons_zero, List.getD_cons_succ, List.getD_nil] at h ⊢
  rw [h]; simp

theorem decodeMap_pad : decodeMap '=' = 0xff := by decide

theorem bytes_value_two (a b : Nat) (hb : b < 256) :
    (a <<< 16) ||| (b <<< 8) = a * 65536 + b * 256 := by
  have h : b <<< 8 = b * 256 := by rw [Nat.shiftLeft_eq]
  rw [h, shiftLeft_or_of_lt a _ 16 (by omega)]
  omega

theorem decodeLoop_pad_two (d0 d1 : Nat) (acc : List Nat) :
    decodeLoop ['=', '='] 2 [d0, d1] acc = (acc ++ quantumBytes [d0, d1] 2, false) := by
  simp [decodeLoop, decodeMap_pad, skipNewlines]

theorem decodeLoop_pad_three (d0 d1 d2 : Nat) (acc : List Nat) :
    decodeLoop ['='] 3 [d0, d1, d2] acc = (acc ++ quantumBytes [d0, d1, d2] 3, false) := by
  simp [decodeLoop, decodeMap_pad, skipNewlines]

theorem decodeLoop_encodeBytes (b : List Nat) : ∀ (_ : ∀ x ∈ b, x < 256) (acc : List Nat),
    decodeLoop (encodeBytes b) 0 [] acc = (acc ++ b, false) := by
  induction b using encodeBytes.induct with
  | case1 => intro _ acc; simp [encodeBytes, decodeLoop]
  | case2 a =>
    intro hb acc
    have ha : a < 256 := hb a (by simp)
    rw [encodeBytes, decodeLoop_digit, if_neg (by decide), decodeLoop_digit,
      if_neg (by decide)]
    simp only [List.nil_append, List.cons_append, Nat.zero_add, Nat.reduceAdd]
    rw [decodeLoop_pad_two, quantumBytes_two _ _ (Nat.mod_lt _ (by decide))]
    simp only [Nat.shiftRight_eq_div_pow, Nat.shiftLeft_eq]
    simp
    omega
  | case3 a b =>
    intro hb acc
    have ha : a < 256 := hb a (by simp)
    have hb1 : b < 256 := hb b (by simp)
    rw [encodeBytes, decodeLoop_digit, if_neg (by decide), decodeLoop_digit,
      if_neg (by decide), decodeLoop_digit, if_neg (by decide)]
    simp only [List.nil_append, List.cons_append, Nat.zero_add, Nat.reduceAdd]
    rw [decodeLoop_pad_three,
      quantumBytes_three _ _ _ (Nat.mod_lt _ (by decide)) (Nat.mod_lt _ (by decide)),
      bytes_value_two a b hb1]
    simp only [Nat.shiftRight_eq_div_pow]
    simp
    refine ⟨by omega, by omega⟩
  | case4 a b c rest ih =>
    intro hb acc
    have ha : a < 256 := hb a (by simp)
    have hb1 : b < 256 := hb b (by simp)
    have hc : c < 256 := hb c (by simp)
    have hrest : ∀ x ∈ rest, x < 256 := fun x hx => hb x (by simp [hx])
    rw [encodeBytes, decodeLoop_digit, if_neg (by decide), decodeLoop_digit,
      if_neg (by decide), decodeLoop_digit, if_neg (by decide), decodeLoop_digit,
      if_pos (by decide)]
    simp only [List.nil_append, List.cons_append, Nat.zero_add, Nat.reduceAdd]
    rw [bytes_value a b c hb1 hc,
      quantumBytes_eq _ _ _ _ (Nat.mod_lt _ (by decide)) (Nat.mod_lt _ (by decide))
        (Nat.mod_lt _ (by decide)), ih hrest]
    simp only [Nat.shiftRight_eq_div_pow]
    simp
    refine ⟨by omega, by omega, by omega⟩

theorem DecodeString_EncodeToString (b : List Nat) (hb : ∀ x ∈ b, x < 256) :
    DecodeString (EncodeToString b) = (b, false) := by
  have h := decodeLoop_encodeBytes b hb []
  simpa [DecodeString, EncodeToString] using h

theorem mem_skipNewlines (c : Char) (hn : c ≠ '\n') (hr : c ≠ '\r') :
    ∀ src : List Char, c ∈ src → c ∈ skipNewlines src := by
  intro src
  induction src with
  | nil => intro h; exact h
  | cons x rest ih =>
    intro h
    rw [skipNewlines]
    split
    · rename_i hx
      rcases List.mem_cons.mp h with rfl | h1
      · rcases hx with hx | hx
        · exact absurd hx hn
        · exact absurd hx hr
      · exact ih h1
    · exact h

theorem decodeLoop_outside_alphabet (c : Char) (hc : decodeMap c = 0xff) (hp : c ≠ '=')
    (hn : c ≠ '\n') (hr : c ≠ '\r') :
    ∀ (src : List Char) (j : Nat) (dbuf acc : List Nat), c ∈ src →
      (decodeLoop src j dbuf acc).2 = true := by
  intro src
  induction src with
  | nil => intro j dbuf acc h; simp at h
  | cons x rest ih =>
    intro j dbuf acc h
    have hrest : x ≠ c → c ∈ rest := by
      intro hx
      rcases List.mem_cons.mp h with h1 | h1
      · exact absurd h1.symm hx
      · exact h1
    rw [decodeLoop]
    split
    · rename_i hx
      have hxc : x ≠ c := by rintro rfl; exact hx hc
      split
      · exact ih _ _ _ (hrest hxc)
      · exact ih _ _ _ (hrest hxc)
    · split
      · rename_i hx
        have hxc : x ≠ c := by
          rintro rfl
          rcases hx with hx | hx
          · exact hn hx
          · exact hr hx
        exact ih _ _ _ (hrest hxc)
      · split
        · rfl
        · rename_i hx
          have hxe : x = '=' := by simpa using hx
          have hxc : x ≠ c := by rintro rfl; exact hp hxe
          have hmem := hrest hxc
          split
          · rfl
          · split
            · have h1 := mem_skipNewlines c hn hr rest hmem
              split
              · rename_i heq
                exact (List.not_mem_nil c (heq ▸ h1)).elim
              · rename_i c1 rest1 heq
                rw [heq] at h1
                split
                · rfl
                · rename_i hc1
                  have hc1e : c1 = '=' := by simpa using hc1
                  have hmem1 : c ∈ rest1 := by
                    rcases List.mem_cons.mp h1 with h2 | h2
                    · exact absurd (h2.trans hc1e) hp
                    · exact h2
                  have h3 := mem_skipNewlines c hn hr rest1 hmem1
                  have : skipNewlines rest1 ≠ [] := List.ne_nil_of_mem h3
                  simp [this]
            · have h1 := mem_skipNewlines c hn hr rest hmem
              have : skipNewlines rest ≠ [] := List.ne_nil_of_mem h1
              simp [this]

/-! ## Base64: the texts the decoder accepts -/

theorem inAlphabet_iff_mem (c : Char) : inAlphabet c = true ↔ c ∈ encodeStd := by
  simp [inAlphabet]

theorem encodeStd_length : encodeStd.length = 64 := by decide

theorem decodeMap_ne_iff (c : Char) : decodeMap c ≠ 0xff ↔ inAlphabet c = true := by
  rw [inAlphabet_iff_mem, ← List.indexOf_lt_length, encodeStd_length]
  unfold decodeMap
  split <;> omega

theorem inAlphabet_pad : inAlphabet '=' = false := by decide

theorem inAlphabet_lf : inAlphabet '\n' = false := by decide

theorem inAlphabet_cr : inAlphabet '\r' = false := by decide

theorem flag_nil (j : Nat) (dbuf acc : List Nat) :
    (decodeLoop [] j dbuf acc).2 = decide (j ≠ 0) := by
  rw [decodeLoop]
  split <;> simp_all

theorem flag_digit (c : Char) (rest : List Char) (j : Nat) (dbuf acc : List Nat)
    (h : inAlphabet c = true) (hj : j ≠ 3) :
    (decodeLoop (c :: rest) j dbuf acc).2
      = (decodeLoop rest (j + 1) (dbuf ++ [decodeMap c]) acc).2 := by
  rw [decodeLoop, if_pos ((decodeMap_ne_iff c).mpr h), if_neg hj]

theorem flag_digit_last (c : Char) (rest : List Char) (dbuf acc : List Nat)
    (h : inAlphabet c = true) :
    (decodeLoop (c :: rest) 3 dbuf acc).2
      = (decodeLoop rest 0 [] (acc ++ quantumBytes (dbuf ++ [decodeMap c]) 4)).2 := by
  rw [decodeLoop, if_pos ((decodeMap_ne_iff c).mpr h), if_pos rfl]

theorem flag_other (c : Char) (rest : List Char) (j : Nat) (dbuf acc : List Nat)
    (h : inAlphabet c = false) (hn : c ≠ '\n') (hr : c ≠ '\r') (hp : c ≠ '=') :
    (decodeLoop (c :: rest) j dbuf acc).2 = true := by
  have hd : ¬ decodeMap c ≠ 0xff := by rw [decodeMap_ne_iff]; simp [h]
  rw [decodeLoop, if_neg hd, if_neg (by simp [hn, hr]), if_pos hp]

theorem skipNewlines_of_noBreaks (l : List Char) (h : ∀ c ∈ l, c ≠ '\n' ∧ c ≠ '\r') :
    skipNewlines l = l := by
  cases l with
  | nil => rfl
  | cons c rest =>
    have hc := h c (by simp)
    rw [skipNewlines, if_neg (by simp [hc.1, hc.2])]

theorem decodeMap_pad_eq : ¬ decodeMap '=' ≠ 0xff := by decide

theorem flag_pad_early (rest : List Char) (j : Nat) (dbuf acc : List Nat)
    (hj : j = 0 ∨ j = 1) : (decodeLoop ('=' :: rest) j dbuf acc).2 = true := by
  rw [decodeLoop, if_neg decodeMap_pad_eq, if_neg (by decide), if_neg (by decide), if_pos hj]

theorem flag_pad_two (rest : List Char) (dbuf acc : List Nat)
    (h : ∀ c ∈ rest, c ≠ '\n' ∧ c ≠ '\r') :
    (decodeLoop ('=' :: rest) 2 dbuf acc).2 = !decide (rest = ['=']) := by
  rw [decodeLoop, if_neg decodeMap_pad_eq, if_neg (by decide), if_neg (by decide),
    if_neg (by decide), if_pos rfl, skipNewlines_of_noBreaks rest h]
  cases rest with
  | nil => rfl
  | cons c1 rest1 =>
    have h1 : ∀ c ∈ rest1, c ≠ '\n' ∧ c ≠ '\r' := fun c hc => h c (by simp [hc])
    by_cases hc1 : c1 = '='
    · subst hc1
      simp only [ne_eq, not_true_eq_false, if_false, skipNewlines_of_noBreaks rest1 h1]
      cases rest1 <;> simp
    · simp [hc1]

theorem flag_pad_three (rest : List Char) (dbuf acc : List Nat)
    (h : ∀ c ∈ rest, c ≠ '\n' ∧ c ≠ '\r') :
    (decodeLoop ('=' :: rest) 3 dbuf acc).2 = !rest.isEmpty := by
  rw [decodeLoop, if_neg decodeMap_pad_eq, if_neg (by decide), if_neg (by decide),
    if_neg (by decide), if_neg (by decide), skipNewlines_of_noBreaks rest h]
  cases rest <;> simp

theorem flag_short (l : List Char) : ∀ (j : Nat) (dbuf acc : List Nat),
    (∀ c ∈ l, c ≠ '\n' ∧ c ≠ '\r') → 0 < j + l.length → j + l.length < 4 →
      (decodeLoop l j dbuf acc).2 = true := by
  induction l with
  | nil =>
    intro j dbuf acc _ h0 _
    rw [flag_nil]
    simp only [List.length_nil, Nat.add_zero] at h0
    simp; omega
  | cons c rest ih =>
    intro j dbuf acc h h0 h4
    have hc := h c (by simp)
    have hrest : ∀ x ∈ rest, x ≠ '\n' ∧ x ≠ '\r' := fun x hx => h x (by simp [hx])
    simp only [List.length_cons] at h4
    by_cases ha : inAlphabet c = true
    · rw [flag_digit c rest j dbuf acc ha (by omega)]
      exact ih _ _ _ hrest (by omega) (by omega)
    · have ha1 : inAlphabet c = false := by simpa using ha
      by_cases hp : c = '='
      · subst hp
        by_cases hj : j = 0 ∨ j = 1
        · exact flag_pad_early rest j dbuf acc hj
        · have hj2 : j = 2 := by omega
          subst hj2
          rw [flag_pad_two rest dbuf acc hrest]
          have : rest = [] := List.eq_nil_of_length_eq_zero (by omega)
          subst this
          rfl
      · exact flag_other c rest j dbuf acc ha1 hc.1 hc.2 hp

theorem flag_eq_not_validStd (l : List Char) : (∀ c ∈ l, c ≠ '\n' ∧ c ≠ '\r') →
    ∀ (dbuf acc : List Nat), (decodeLoop l 0 dbuf acc).2 = !validStd l := by
  induction l using validStd.induct with
  | case1 => intro _ dbuf acc; rfl
  | case2 a b c d rest ih =>
    intro h dbuf acc
    have ha := h a (by simp)
    have hb := h b (by simp)
    have hc := h c (by simp)
    have hd := h d (by simp)
    have hbcd : ∀ x ∈ b :: c :: d :: rest, x ≠ '\n' ∧ x ≠ '\r' :=
      fun x hx => h x (List.mem_cons_of_mem _ hx)
    have hcd : ∀ x ∈ c :: d :: rest, x ≠ '\n' ∧ x ≠ '\r' :=
      fun x hx => hbcd x (List.mem_cons_of_mem _ hx)
    have hdr : ∀ x ∈ d :: rest, x ≠ '\n' ∧ x ≠ '\r' :=
      fun x hx => hcd x (List.mem_cons_of_mem _ hx)
    have hr : ∀ x ∈ rest, x ≠ '\n' ∧ x ≠ '\r' :=
      fun x hx => hdr x (by simp [hx])
    rw [validStd]
    by_cases iA : inAlphabet a = true
    · rw [flag_digit a _ 0 dbuf acc iA (by decide)]
      by_cases iB : inAlphabet b = true
      · rw [flag_digit b _ 1 _ acc iB (by decide)]
        by_cases iC : inAlphabet c = true
        · have hcp : c ≠ '=' := by rintro rfl; simp [inAlphabet_pad] at iC
          rw [flag_digit c _ 2 _ acc iC (by decide)]
          by_cases iD : inAlphabet d = true
          · have hdp : d ≠ '=' := by rintro rfl; simp [inAlphabet_pad] at iD
            rw [flag_digit_last d rest _ acc iD, ih hr]
            simp [iA, iB, iC, iD, hdp]
          · have iD1 : inAlphabet d = false := by simpa using iD
            by_cases hdp : d = '='
            · subst hdp
              rw [flag_pad_three rest _ acc hr]
              simp [iA, iB, iC, iD1]
            · rw [flag_other d rest 3 _ acc iD1 hd.1 hd.2 hdp]
              simp [iA, iB, iC, iD1, hdp]
        · have iC1 : inAlphabet c = false := by simpa using iC
          by_cases hcp : c = '='
          · subst hcp
            rw [flag_pad_two (d :: rest) _ acc hdr]
            by_cases hdp : d = '='
            · subst hdp
              cases rest <;> simp [iA, iB, iC1]
            · simp [iA, iB, iC1, hdp]
          · rw [flag_other c _ 2 _ acc iC1 hc.1 hc.2 hcp]
            simp [iA, iB, iC1, hcp]
      · have iB1 : inAlphabet b = false := by simpa using iB
        by_cases hbp : b = '='
        · subst hbp
          rw [flag_pad_early _ 1 _ acc (Or.inr rfl)]
          simp [iB1]
        · rw [flag_other b _ 1 _ acc iB1 hb.1 hb.2 hbp]
          simp [iB1]
    · have iA1 : inAlphabet a = false := by simpa using iA
      by_cases hap : a = '='
      · subst hap
        rw [flag_pad_early _ 0 dbuf acc (Or.inl rfl)]
        simp [iA1]
      · rw [flag_other a _ 0 dbuf acc iA1 ha.1 ha.2 hap]
        simp [iA1]
  | case3 t hnil hfour =>
    intro h dbuf acc
    have hv : validStd t = false := by
      match t, hnil, hfour with
      | [], hnil, _ => exact absurd rfl hnil
      | [_], _, _ => rfl
      | [_, _], _, _ => rfl
      | [_, _, _], _, _ => rfl
      | a :: b :: c :: d :: rest, _, hfour => exact absurd rfl (hfour a b c d rest)
    have hlen : 0 < t.length ∧ t.length < 4 := by
      match t, hnil, hfour with
      | [], hnil, _ => exact absurd rfl hnil
      | [_], _, _ => exact ⟨by simp, by simp⟩
      | [_, _], _, _ => exact ⟨by simp, by simp⟩
      | [_, _, _], _, _ => exact ⟨by simp, by simp⟩
      | a :: b :: c :: d :: rest, _, hfour => exact absurd rfl (hfour a b c d rest)
    rw [hv, flag_short t 0 dbuf acc h (by omega) (by omega)]
    rfl

theorem stripLineBreaks_cons_break (c : Char) (rest : List Char)
    (h : c = '\n' ∨ c = '\r') : stripLineBreaks (c :: rest) = stripLineBreaks rest := by
  rcases h with rfl | rfl <;> rfl

theorem stripLineBreaks_cons_other (c : Char) (rest : List Char)
    (h : ¬ (c = '\n' ∨ c = '\r')) :
    stripLineBreaks (c :: rest) = c :: stripLineBreaks rest := by
  have hn : c ≠ '\n' := fun e => h (Or.inl e)
  have hr : c ≠ '\r' := fun e => h (Or.inr e)
  simp [stripLineBreaks, List.filter_cons, hn, hr]

theorem stripLineBreaks_noBreaks (l : List Char) :
    ∀ c ∈ stripLineBreaks l, c ≠ '\n' ∧ c ≠ '\r' := by
  intro c hc
  simp only [stripLineBreaks, List.mem_filter, Bool.not_eq_true', Bool.or_eq_false_iff,
    beq_eq_false_iff_ne] at hc
  exact hc.2

theorem stripLineBreaks_skipNewlines (l : List Char) :
    stripLineBreaks (skipNewlines l) = stripLineBreaks l := by
  induction l with
  | nil => rfl
  | cons c rest ih =>
    rw [skipNewlines]
    split
    · rename_i h
      rw [ih, stripLineBreaks_cons_break c rest h]
    · rfl

theorem skipNewlines_head (l : List Char) :
    skipNewlines l = [] ∨ ∃ c r, skipNewlines l = c :: r ∧ ¬ (c = '\n' ∨ c = '\r') := by
  induction l with
  | nil => exact Or.inl rfl
  | cons c rest ih =>
    rw [skipNewlines]
    split
    · exact ih
    · rename_i h
      exact Or.inr ⟨c, rest, rfl, h⟩

theorem skipNewlines_eq_nil_iff (l : List Char) :
    skipNewlines l = [] ↔ stripLineBreaks l = [] := by
  rcases skipNewlines_head l with h | ⟨c, r, h, hc⟩
  · have := stripLineBreaks_skipNewlines l
    rw [h] at this
    exact ⟨fun _ => this.symm, fun _ => h⟩
  · have := stripLineBreaks_skipNewlines l
    rw [h, stripLineBreaks_cons_other c r hc] at this
    constructor
    · intro e; rw [h] at e; cases e
    · intro e; rw [e] at this; cases this

theorem skipNewlines_stripLineBreaks (l : List Char) :
    skipNewlines (stripLineBreaks l) = stripLineBreaks l :=
  skipNewlines_of_noBreaks _ (stripLineBreaks_noBreaks l)

theorem decodeLoop_stripLineBreaks (src : List Char) : ∀ (j : Nat) (dbuf acc : List Nat),
    decodeLoop (stripLineBreaks src) j dbuf acc = decodeLoop src j dbuf acc := by
  induction src with
  | nil => intro j dbuf acc; rfl
  | cons c rest ih =>
    intro j dbuf acc
    by_cases hbr : c = '\n' ∨ c = '\r'
    · have hd : ¬ decodeMap c ≠ 0xff := by
        rcases hbr with rfl | rfl <;> decide
      rw [stripLineBreaks_cons_break c rest hbr, ih]
      conv => rhs; rw [decodeLoop, if_neg hd, if_pos hbr]
    · rw [stripLineBreaks_cons_other c rest hbr]
      rw [decodeLoop]
      conv => rhs; rw [decodeLoop]
      simp only [ih, skipNewlines_stripLineBreaks]
      by_cases hdig : decodeMap c ≠ 0xff
      · simp only [if_pos hdig]
      · simp only [if_neg hdig, if_neg hbr]
        by_cases hp : c ≠ '='
        · simp only [if_pos hp]
        · simp only [if_neg hp]
          by_cases h01 : j = 0 ∨ j = 1
          · simp only [if_pos h01]
          · simp only [if_neg h01]
            have e3 : decide (stripLineBreaks rest ≠ []) = decide (skipNewlines rest ≠ []) := by
              simp only [ne_eq, skipNewlines_eq_nil_iff]
            by_cases h2 : j = 2
            · simp only [if_pos h2]
              rcases skipNewlines_head rest with h | ⟨c1, r1, h, hc1⟩
              · rw [h, (skipNewlines_eq_nil_iff rest).mp h]
              · have hs := stripLineBreaks_skipNewlines rest
                rw [h, stripLineBreaks_cons_other c1 r1 hc1] at hs
                rw [h, ← hs]
                simp only [skipNewlines_stripLineBreaks]
                have e4 : decide (stripLineBreaks r1 ≠ []) = decide (skipNewlines r1 ≠ []) := by
                  simp only [ne_eq, skipNewlines_eq_nil_iff]
                rw [e4]
            · simp only [if_neg h2, e3]

theorem DecodeString_error_eq (s : String) :
    (DecodeString s).2 = !validStd (stripLineBreaks s.toList) := by
  rw [DecodeString, ← decodeLoop_stripLineBreaks,
    flag_eq_not_validStd _ (stripLineBreaks_noBreaks s.toList)]

/-! ## The path of an audio delta: lemmas -/

theorem listenForEventsStep_message_continues (c : OpenAIRealtimeClient) (m : Message) :
    (listenForEventsStep c (Frame.message m)).continues = true := by
  simp only [listenForEventsStep]
  cases m.dataType with
  | none => rfl
  | some t =>
    simp only [dispatch]
    repeat' split
    all_goals rfl

theorem arrivalChunks_cons (c : OpenAIRealtimeClient) (m : Message) (rest : List Message) :
    arrivalChunks c (m :: rest)
      = (listenForEventsStep c (Frame.message m)).spawned.flatMap handleResponseAudioDelta
        ++ arrivalChunks (listenForEventsStep c (Frame.message m)).client rest := by
  simp [arrivalChunks, listenForEvents, listenForEventsStep_message_continues,
    List.flatMap_append]

/-- What a pipeline state still owes and has delivered: the received chunks, then those of
the started handlers, then those of the messages still to arrive. -/
theorem Step_preserves_chunks (s s1 : Pipeline) (h : Pipeline.Step s s1) :
    List.Perm
      (s1.received ++ s1.handlers.flatMap handleResponseAudioDelta
        ++ arrivalChunks s1.client s1.inbound)
      (s.received ++ s.handlers.flatMap handleResponseAudioDelta
        ++ arrivalChunks s.client s.inbound) := by
  cases h with
  | receive m rest c handlers received =>
    simp only [arrivalChunks_cons, List.flatMap_append, List.append_assoc]
    exact List.Perm.refl _
  | finish m before after inbound c received =>
    simp only [List.flatMap_append, List.flatMap_cons, List.append_assoc]
    apply List.Perm.append_left
    have hp := List.Perm.append_right
      (after.flatMap handleResponseAudioDelta ++ arrivalChunks c inbound)
      (@List.perm_append_comm _ (handleResponseAudioDelta m)
        (before.flatMap handleResponseAudioDelta))
    simpa only [List.append_assoc] using hp

theorem Run_preserves_chunks (s s1 : Pipeline) (h : Pipeline.Run s s1) :
    List.Perm
      (s1.received ++ s1.handlers.flatMap handleResponseAudioDelta
        ++ arrivalChunks s1.client s1.inbound)
      (s.received ++ s.handlers.flatMap handleResponseAudioDelta
        ++ arrivalChunks s.client s.inbound) := by
  induction h with
  | refl => exact List.Perm.refl _
  | tail _ hstep ih => exact (Step_preserves_chunks _ _ hstep).trans ih

theorem arrivalChunks_nil (c : OpenAIRealtimeClient) : arrivalChunks c [] = [] := rfl

theorem inOrder_run (msgs : List Message) : ∀ (c : OpenAIRealtimeClient)
    (received : List (List Nat)),
    ∃ c1, Pipeline.Run
      { inbound := msgs, client := c, handlers := [], received := received }
      { inbound := [], client := c1, handlers := [],
        received := received ++ arrivalChunks c msgs } := by
  induction msgs with
  | nil =>
    intro c received
    exact ⟨c, by rw [arrivalChunks_nil, List.append_nil]; exact Relation.ReflTransGen.refl⟩
  | cons m rest ih =>
    intro c received
    have hstep := Pipeline.Step.receive m rest c [] received
    rw [List.nil_append] at hstep
    rw [arrivalChunks_cons]
    generalize hr : listenForEventsStep c (Frame.message m) = r at hstep
    have hsp : r.spawned = [] ∨ r.spawned = [m] := by
      rw [← hr]
      simp only [listenForEventsStep]
      cases m.dataType with
      | none => exact Or.inl rfl
      | some t =>
        simp only [dispatch]
        repeat' split
        all_goals first | exact Or.inl rfl | exact Or.inr rfl
    rcases hsp with hsp | hsp
    · rw [hsp] at hstep
      obtain ⟨c1, hrun⟩ := ih r.client received
      refine ⟨c1, ?_⟩
      rw [hsp, List.flatMap_nil, List.nil_append]
      exact Relation.ReflTransGen.head hstep hrun
    · rw [hsp] at hstep
      have hfin := Pipeline.Step.finish m [] [] rest r.client received
      simp only [List.nil_append] at hfin
      obtain ⟨c1, hrun⟩ := ih r.client (received ++ handleResponseAudioDelta m)
      refine ⟨c1, ?_⟩
      rw [hsp, List.flatMap_cons, List.flatMap_nil, List.append_nil, ← List.append_assoc]
      exact Relation.ReflTransGen.head hstep (Relation.ReflTransGen.head hfin hrun)

theorem playLoop_eq_Writes (chunks : List (List Nat)) : ∀ cb : CircularBuffer,
    playLoop cb chunks = cb.Writes (playWrites chunks) := by
  induction chunks with
  | nil => intro cb; rfl
  | cons a rest ih =>
    intro cb
    simp only [playLoop, playChunk, playWrites, List.filterMap_cons]
    cases bytesToInt16 a with
    | error e => simpa [playWrites] using ih cb
    | ok d =>
      simp only [CircularBuffer.Writes]
      cases cb.Write d with
      | none => rfl
      | some cb1 => simpa [playWrites] using ih cb1

theorem complete_run_received (c : OpenAIRealtimeClient) (msgs : List Message)
    (final : Pipeline) (hrun : Pipeline.Run (Pipeline.init c msgs) final)
    (hin : final.inbound = []) (hh : final.handlers = []) :
    List.Perm final.received (arrivalChunks c msgs) := by
  have h := Run_preserves_chunks _ _ hrun
  simpa [Pipeline.init, hin, hh, arrivalChunks_nil] using h

/-- A run on two deltas in which the handler of the second one sends first. -/
theorem reversed_run (c : OpenAIRealtimeClient) (d1 d2 : String) :
    Pipeline.Run
      (Pipeline.init c [⟨some (Iface.str "response.audio.delta"), d1⟩,
        ⟨some (Iface.str "response.audio.delta"), d2⟩])
      { inbound := [], client := { c with assistantIsTalking := true }, handlers := [],
        received := handleResponseAudioDelta ⟨some (Iface.str "response.audio.delta"), d2⟩
          ++ handleResponseAudioDelta ⟨some (Iface.str "response.audio.delta"), d1⟩ } := by
  have s1 := Pipeline.Step.receive ⟨some (Iface.str "response.audio.delta"), d1⟩
    [⟨some (Iface.str "response.audio.delta"), d2⟩] c [] []
  have s2 := Pipeline.Step.receive ⟨some (Iface.str "response.audio.delta"), d2⟩ []
    { c with assistantIsTalking := true } [⟨some (Iface.str "response.audio.delta"), d1⟩] []
  have s3 := Pipeline.Step.finish ⟨some (Iface.str "response.audio.delta"), d2⟩
    [⟨some (Iface.str "response.audio.delta"), d1⟩] [] []
    { c with assistantIsTalking := true } []
  have s4 := Pipeline.Step.finish ⟨some (Iface.str "response.audio.delta"), d1⟩ [] [] []
    { c with assistantIsTalking := true }
    (handleResponseAudioDelta ⟨some (Iface.str "response.audio.delta"), d2⟩)
  simp only [listenForEventsStep, dispatch, if_true, List.nil_append, List.singleton_append,
    List.append_nil] at s1 s2 s3 s4
  exact Relation.ReflTransGen.head s1 (Relation.ReflTransGen.head s2
    (Relation.ReflTransGen.head s3 (Relation.ReflTransGen.head s4 Relation.ReflTransGen.refl)))

/-! ## The realtime client: the claims -/

/-- Claim C5. A newly constructed client is in the state AssistantIdle
(`assistantIsTalking = false`).  One pass of the inbound loop on a message of type
`response.created`, `conversation.item.created` or `response.audio.delta` leaves
`assistantIsTalking = true`, and on a message of type `response.audio.done` or
`response.done` leaves it `false`, whatever the state before and whatever else the
message holds.  Hence from the initial state `[response.created, response.audio.done]`
ends idle, and `[response.audio.delta]` alone ends speaking. -/
theorem turn_state_follows_event_type :
    GetOpenAIRealtimeClient.assistantIsTalking = false
      ∧ (∀ (c : OpenAIRealtimeClient) (d : String),
          (listenForEventsStep c (Frame.message ⟨some (Iface.str "response.created"), d⟩)).client
              = { c with assistantIsTalking := true }
          ∧ (listenForEventsStep c
                (Frame.message ⟨some (Iface.str "conversation.item.created"), d⟩)).client
              = { c with assistantIsTalking := true }
          ∧ (listenForEventsStep c
                (Frame.message ⟨some (Iface.str "response.audio.delta"), d⟩)).client
              = { c with assistantIsTalking := true }
          ∧ (listenForEventsStep c
                (Frame.message ⟨some (Iface.str "response.audio.done"), d⟩)).client
              = { c with assistantIsTalking := false }
          ∧ (listenForEventsStep c (Frame.message ⟨some (Iface.str "response.done"), d⟩)).client
              = { c with assistantIsTalking := false })
      ∧ (∀ d1 d2 : String,
          (listenForEvents GetOpenAIRealtimeClient
              [Frame.message ⟨some (Iface.str "response.created"), d1⟩,
               Frame.message ⟨some (Iface.str "response.audio.done"), d2⟩]).1.assistantIsTalking
            = false)
      ∧ (∀ d : String,
          (listenForEvents GetOpenAIRealtimeClient
              [Frame.message ⟨some (Iface.str "response.audio.delta"), d⟩]).1.assistantIsTalking
            = true) := by
  refine ⟨rfl, ?_, ?_, ?_⟩
  · intro c d
    simp [listenForEventsStep, dispatch]
  · intro d1 d2
    simp [listenForEvents, listenForEventsStep, dispatch]
  · intro d
    simp [listenForEvents, listenForEventsStep, dispatch]

/-- Claim C6. For every sequence of captured chunks fed to `listenForAudioInput`, each with
the turn state the loop reads for it: a chunk read while the assistant is speaking gives
no event, and the chunks read while it is idle give exactly one event each, in arrival
order, of type `input_audio_buffer.append`, whose `audio` is the standard base64 encoding
of the chunk and whose `event_id` is the next value of the identifier generator; when
the generator returns distinct values the identifiers are pairwise distinct. -/
theorem outbound_gating (uuid : Nat → String) (huuid : Function.Injective uuid) (k : Nat)
    (chunks : List (List Nat × Bool)) :
    ((∀ p ∈ chunks, p.2 = true) → listenForAudioInput uuid k chunks = [])
      ∧ (listenForAudioInput uuid k chunks).map (fun e => e.Audio)
          = (chunks.filter (fun p => !p.2)).map (fun p => EncodeToString p.1)
      ∧ (∀ e ∈ listenForAudioInput uuid k chunks, e.Type_ = "input_audio_buffer.append")
      ∧ (listenForAudioInput uuid k chunks).map (fun e => e.EventID)
          = (List.range (chunks.filter (fun p => !p.2)).length).map (fun i => uuid (k + i))
      ∧ ((listenForAudioInput uuid k chunks).map (fun e => e.EventID)).Nodup := by
  have hids : ∀ (chunks : List (List Nat × Bool)) (k : Nat),
      (listenForAudioInput uuid k chunks).map (fun e => e.EventID)
        = (List.range (chunks.filter (fun p => !p.2)).length).map (fun i => uuid (k + i)) := by
    intro chunks
    induction chunks with
    | nil => intro k; rfl
    | cons p rest ih =>
      intro k
      obtain ⟨audio, talking⟩ := p
      cases talking
      · simp only [listenForAudioInput, Bool.not_false, if_true, List.map_cons, ih (k + 1),
          List.filter_cons_of_pos, List.length_cons, List.range_succ_eq_map, List.map_map,
          Nat.add_zero]
        congr 1
        apply List.map_congr_left
        intro i _
        simp only [Function.comp_apply]
        congr 1
        omega
      · simp [listenForAudioInput, ih k]
  refine ⟨?_, ?_, ?_, hids chunks k, ?_⟩
  · induction chunks generalizing k with
    | nil => intro _; rfl
    | cons p rest ih =>
      intro h
      have hp := h p (by simp)
      obtain ⟨audio, talking⟩ := p
      simp only at hp
      subst hp
      simp only [listenForAudioInput, Bool.not_true, Bool.false_eq_true, if_false]
      exact ih k (fun q hq => h q (by simp [hq]))
  · induction chunks generalizing k with
    | nil => rfl
    | cons p rest ih =>
      obtain ⟨audio, talking⟩ := p
      cases talking <;> simp [listenForAudioInput, ih]
  · induction chunks generalizing k with
    | nil => intro e he; simp [listenForAudioInput] at he
    | cons p rest ih =>
      obtain ⟨audio, talking⟩ := p
      intro e he
      cases talking
      · simp only [listenForAudioInput, Bool.not_false, if_true, List.mem_cons] at he
        rcases he with rfl | he
        · rfl
        · exact ih (k + 1) e he
      · simp only [listenForAudioInput, Bool.not_true, Bool.false_eq_true, if_false] at he
        exact ih k e he
  · rw [hids chunks k]
    apply List.Nodup.map _ (List.nodup_range _)
    intro i j hij
    have := huuid hij
    omega

/-- Claim C7. For every inbound message that `json.Unmarshal` rejects, and for every one it
accepts whose `data["type"]` is none of the five recognised types (a string with no
`case`, a value that is not a string, or no value at all), one pass of the inbound loop
leaves the client unchanged, spawns no audio handler and goes on to the next pass. -/
theorem unrecognised_message_is_skipped (c : OpenAIRealtimeClient) (m : Message)
    (h : ∀ t, m.dataType = some t → t ∉ recognisedTypes) :
    listenForEventsStep c (Frame.message m)
      = { client := c, spawned := [], continues := true } := by
  cases hm : m.dataType with
  | none => simp [listenForEventsStep, hm]
  | some t =>
    have ht := h t hm
    simp only [recognisedTypes, List.mem_cons, List.mem_singleton, not_or, List.not_mem_nil,
      or_false] at ht
    obtain ⟨h1, h2, h3, h4, h5⟩ := ht
    simp [listenForEventsStep, hm, dispatch, h1, h2, h3, h4, h5]

/-- Witness of C7: a message that is not JSON, one whose type has no case, one whose type
is a number, and one without a type, each met while the assistant is speaking. -/
theorem unrecognised_message_is_skipped_witness :
    listenForEventsStep ⟨some 1, some 2, true⟩ (Frame.message ⟨none, ""⟩)
        = { client := ⟨some 1, some 2, true⟩, spawned := [], continues := true }
      ∧ listenForEventsStep ⟨some 1, some 2, true⟩
          (Frame.message ⟨some (Iface.str "session.created"), ""⟩)
        = { client := ⟨some 1, some 2, true⟩, spawned := [], continues := true }
      ∧ listenForEventsStep ⟨some 1, some 2, true⟩ (Frame.message ⟨some Iface.other, "AQA="⟩)
        = { client := ⟨some 1, some 2, true⟩, spawned := [], continues := true }
      ∧ listenForEventsStep ⟨some 1, some 2, true⟩ (Frame.message ⟨some Iface.nil, ""⟩)
        = { client := ⟨some 1, some 2, true⟩, spawned := [], continues := true } :=
  ⟨unrecognised_message_is_skipped _ _ (by decide),
   unrecognised_message_is_skipped _ _ (by decide),
   unrecognised_message_is_skipped _ _ (by decide),
   unrecognised_message_is_skipped _ _ (by decide)⟩

/-- Witness of C6: the generator whose `n`-th identifier is `n` letters long, three
chunks of which the second arrives while the assistant is speaking, and two chunks that
both arrive while it is speaking. -/
theorem outbound_gating_witness :
    Function.Injective (fun n : Nat => String.mk (List.replicate n 'u'))
      ∧ listenForAudioInput (fun n => String.mk (List.replicate n 'u')) 1
          [([1, 0], false), ([2, 0], true), ([3, 0], false)]
        = [⟨"u", "input_audio_buffer.append", "AQA="⟩,
           ⟨"uu", "input_audio_buffer.append", "AwA="⟩]
      ∧ ((listenForAudioInput (fun n => String.mk (List.replicate n 'u')) 1
          [([1, 0], false), ([2, 0], true), ([3, 0], false)]).map (fun e => e.EventID)).Nodup
      ∧ listenForAudioInput (fun n => String.mk (List.replicate n 'u')) 1
          [([1, 0], true), ([2, 0], true)] = [] :=
  have hinj : Function.Injective (fun n : Nat => String.mk (List.replicate n 'u')) := by
    intro a b hab
    have h := congrArg (fun s : String => s.data.length) hab
    simpa using h
  ⟨hinj, by decide,
    (outbound_gating (fun n => String.mk (List.replicate n 'u')) hinj 1
      [([1, 0], false), ([2, 0], true), ([3, 0], false)]).2.2.2.2,
    (outbound_gating (fun n => String.mk (List.replicate n 'u')) hinj 1
      [([1, 0], true), ([2, 0], true)]).1 (by decide)⟩

/-- Claim C8. When the audio output channel or the audio input channel of the client is
nil, `Start` returns a configuration error with no effect before it: nothing is written
to the connection and no loop is started.  When both are attached, the session
configuration is written first and the two loops are started after it; when marshalling
or writing the configuration fails, `Start` returns an error and starts no loop. -/
theorem Start_checks_before_io :
    (∀ (input : Option Nat) (talking : Bool) (marshalErr writeErr : Option String),
        OpenAIRealtimeClient.Start ⟨none, input, talking⟩ marshalErr writeErr
          = ([], StartOutcome.error "audio output channel is not attached"))
      ∧ (∀ (output : Nat) (talking : Bool) (marshalErr writeErr : Option String),
        OpenAIRealtimeClient.Start ⟨some output, none, talking⟩ marshalErr writeErr
          = ([], StartOutcome.error "audio input channel is not attached"))
      ∧ (∀ (output input : Nat) (talking : Bool),
        OpenAIRealtimeClient.Start ⟨some output, some input, talking⟩ none none
          = ([StartEffect.writeSessionUpdate, StartEffect.goListenForEvents,
              StartEffect.goListenForAudioInput], StartOutcome.blocks))
      ∧ (∀ (output input : Nat) (talking : Bool) (e : String),
        OpenAIRealtimeClient.Start ⟨some output, some input, talking⟩ none (some e)
          = ([StartEffect.writeSessionUpdate],
              StartOutcome.error ("failed to send initial session config: "
                ++ ("error sending session update: " ++ e))))
      ∧ (∀ (output input : Nat) (talking : Bool) (e : String) (writeErr : Option String),
        OpenAIRealtimeClient.Start ⟨some output, some input, talking⟩ (some e) writeErr
          = ([], StartOutcome.error ("failed to send initial session config: "
                ++ ("error marshalling session update: " ++ e)))) := by
  refine ⟨?_, ?_, ?_, ?_, ?_⟩ <;> intros <;>
    simp [OpenAIRealtimeClient.Start, sendInitialSessionConfig]

/-! ## The handler of an audio delta: the claim -/

/-- Counterexample to C9 as stated.  A message whose member `delta` is not a JSON string
(for instance the number 123) holds no valid base64, yet
the handler sends one chunk, the empty one: the field `Delta` keeps its zero value, which
decodes without error.  And the text `AQA=` followed by a line feed is not base64 text in
the sense of RFC 4648, yet the handler sends the chunk `[1, 0]`, since the decoder passes
over line breaks. -/
theorem invalid_delta_still_forwarded :
    (DeltaField.validBase64 DeltaField.other = false
        ∧ handleResponseAudioDelta
            ⟨some (Iface.str "response.audio.delta"), unmarshalDelta DeltaField.other⟩ = [[]])
      ∧ (DeltaField.validBase64 (DeltaField.string "AQA=\n") = false
        ∧ handleResponseAudioDelta
            ⟨some (Iface.str "response.audio.delta"),
              unmarshalDelta (DeltaField.string "AQA=\n")⟩ = [[1, 0]]) := by
  decide

/-- Claim C9, amended. For every byte sequence `b`, handling a `response.audio.delta`
message whose `delta` is the standard base64 encoding of `b` sends exactly one chunk,
equal to `b` byte for byte, on the audio output; and for every message whose `delta` is a
JSON string that, carriage returns and line feeds aside, is not valid standard base64,
the handler sends nothing and returns.  The two cases exclude each other, the encoding of
`b` being valid, and a string that is valid once its line breaks are removed always
yields exactly one chunk. -/
theorem audio_delta_string_decoding (b : List Nat) (hb : ∀ x ∈ b, x < 256)
    (t : Option Iface) (s : String) (hs : validStd (stripLineBreaks s.toList) = false) :
    handleResponseAudioDelta ⟨t, unmarshalDelta (DeltaField.string (EncodeToString b))⟩ = [b]
      ∧ validStd (stripLineBreaks (EncodeToString b).toList) = true
      ∧ handleResponseAudioDelta ⟨t, unmarshalDelta (DeltaField.string s)⟩ = []
      ∧ (∀ s1 : String, validStd (stripLineBreaks s1.toList) = true →
          ∃ chunk, handleResponseAudioDelta ⟨t, unmarshalDelta (DeltaField.string s1)⟩
            = [chunk]) := by
  have hrt := DecodeString_EncodeToString b hb
  refine ⟨?_, ?_, ?_, ?_⟩
  · simp [handleResponseAudioDelta, unmarshalDelta, hrt]
  · have h := DecodeString_error_eq (EncodeToString b)
    rw [hrt] at h
    simpa using h.symm
  · have h := DecodeString_error_eq s
    rw [hs] at h
    simp [handleResponseAudioDelta, unmarshalDelta, h]
  · intro s1 hs1
    have h := DecodeString_error_eq s1
    rw [hs1] at h
    exact ⟨(DecodeString s1).1, by simp [handleResponseAudioDelta, unmarshalDelta, h]⟩

/-- Witness of C9 (amended): the chunk `[1, 0, 255, 128]`, the truncated text `AQ=`, and a
valid text broken over two lines. -/
theorem audio_delta_string_decoding_witness :
    (∀ x ∈ [1, 0, 255, 128], x < 256)
      ∧ validStd (stripLineBreaks "AQ=".toList) = false
      ∧ handleResponseAudioDelta
          ⟨some (Iface.str "response.audio.delta"),
            unmarshalDelta (DeltaField.string (EncodeToString [1, 0, 255, 128]))⟩
        = [[1, 0, 255, 128]]
      ∧ handleResponseAudioDelta
          ⟨some (Iface.str "response.audio.delta"), unmarshalDelta (DeltaField.string "AQ=")⟩
        = []
      ∧ ∃ chunk, handleResponseAudioDelta
          ⟨some (Iface.str "response.audio.delta"),
            unmarshalDelta (DeltaField.string "AQ\r\nA=\n")⟩ = [chunk] :=
  have h := audio_delta_string_decoding [1, 0, 255, 128] (by decide)
    (some (Iface.str "response.audio.delta")) "AQ=" (by decide)
  ⟨by decide, by decide, h.1, h.2.2.1, h.2.2.2 "AQ\r\nA=\n" (by decide)⟩

/-! ## The path of an audio delta: the claim -/

/-- Counterexample to C10 as stated.  Two deltas carrying the chunks `[1, 0]` and `[2, 0]`
arrive in this order; in a complete run where the second handler sends first, the
playback loop writes the sample 2 before the sample 1.  And the chunk `[1]` of a delta,
having an odd length, is never written to the buffer in any complete run. -/
theorem delta_chunks_reordered_or_skipped :
    (arrivalChunks GetOpenAIRealtimeClient
          [⟨some (Iface.str "response.audio.delta"), "AQA="⟩,
           ⟨some (Iface.str "response.audio.delta"), "AgA="⟩] = [[1, 0], [2, 0]]
        ∧ playWrites [[1, 0], [2, 0]] = [[1], [2]]
        ∧ ∃ final, Pipeline.Run
            (Pipeline.init GetOpenAIRealtimeClient
              [⟨some (Iface.str "response.audio.delta"), "AQA="⟩,
               ⟨some (Iface.str "response.audio.delta"), "AgA="⟩]) final
          ∧ final.inbound = [] ∧ final.handlers = []
          ∧ final.received = [[2, 0], [1, 0]] ∧ playWrites final.received = [[2], [1]])
      ∧ (arrivalChunks GetOpenAIRealtimeClient
            [⟨some (Iface.str "response.audio.delta"), "AQ=="⟩] = [[1]]
        ∧ ∀ final, Pipeline.Run
            (Pipeline.init GetOpenAIRealtimeClient
              [⟨some (Iface.str "response.audio.delta"), "AQ=="⟩]) final
          → final.inbound = [] → final.handlers = [] → playWrites final.received = []) := by
  refine ⟨⟨by decide, by decide, _, reversed_run GetOpenAIRealtimeClient "AQA=" "AgA=",
    rfl, rfl, by decide, by decide⟩, by decide, ?_⟩
  intro final hrun hin hh
  have h := complete_run_received _ _ final hrun hin hh
  have e : arrivalChunks GetOpenAIRealtimeClient
      [⟨some (Iface.str "response.audio.delta"), "AQ=="⟩] = [[1]] := by decide
  rw [e, List.perm_singleton] at h
  rw [h]
  decide

/-- Claim C10, amended. For every sequence of messages received by the inbound loop and
every complete run of the handler tasks, each decoded audio chunk of even length is
written to the circular buffer exactly once and a chunk of odd length is skipped: the
sequence of writes is a permutation of the writes for the decoded chunks taken in
network-arrival order, and it is what the playback loop does to its buffer.  A complete
run exists, the one where every handler sends before the next message is read. -/
theorem delta_chunks_written_once (c : OpenAIRealtimeClient) (msgs : List Message)
    (final : Pipeline) (hrun : Pipeline.Run (Pipeline.init c msgs) final)
    (hin : final.inbound = []) (hh : final.handlers = []) :
    List.Perm (playWrites final.received) (playWrites (arrivalChunks c msgs))
      ∧ (∀ cb : CircularBuffer,
          playLoop cb final.received = cb.Writes (playWrites final.received))
      ∧ ∃ final1, Pipeline.Run (Pipeline.init c msgs) final1
          ∧ final1.inbound = [] ∧ final1.handlers = []
          ∧ final1.received = arrivalChunks c msgs := by
  refine ⟨?_, fun cb => playLoop_eq_Writes _ cb, ?_⟩
  · exact (complete_run_received c msgs final hrun hin hh).filterMap _
  · obtain ⟨c1, h⟩ := inOrder_run msgs c []
    exact ⟨_, h, rfl, rfl, by simp⟩

/-- Witness of C10 (amended): the run on two deltas in which the second handler sends
first. -/
theorem delta_chunks_written_once_witness :
    Pipeline.Run
        (Pipeline.init GetOpenAIRealtimeClient
          [⟨some (Iface.str "response.audio.delta"), "AQA="⟩,
           ⟨some (Iface.str "response.audio.delta"), "AgA="⟩])
        { inbound := [], client := { GetOpenAIRealtimeClient with assistantIsTalking := true },
          handlers := [], received := [[2, 0], [1, 0]] }
      ∧ List.Perm (playWrites [[2, 0], [1, 0]])
          (playWrites (arrivalChunks GetOpenAIRealtimeClient
            [⟨some (Iface.str "response.audio.delta"), "AQA="⟩,
             ⟨some (Iface.str "response.audio.delta"), "AgA="⟩])) :=
  have hrun : Pipeline.Run
      (Pipeline.init GetOpenAIRealtimeClient
        [⟨some (Iface.str "response.audio.delta"), "AQA="⟩,
         ⟨some (Iface.str "response.audio.delta"), "AgA="⟩])
      { inbound := [], client := { GetOpenAIRealtimeClient with assistantIsTalking := true },
        handlers := [], received := [[2, 0], [1, 0]] } :=
    reversed_run GetOpenAIRealtimeClient "AQA=" "AgA="
  ⟨hrun, (delta_chunks_written_once _ _ _ hrun rfl rfl).1⟩

/-! ## PCM16 conversions: lemmas -/

theorem or_shiftLeft_eight (b0 b1 : Nat) (h0 : b0 < 256) :
    b0 ||| (b1 <<< 8) = b1 * 256 + b0 := by
  rw [Nat.lor_comm, shiftLeft_or_of_lt b1 b0 8 (by omega)]
  omega

theorem putUint16_eq (v : Int) :
    putUint16 v = [(v % 65536).toNat % 256, (v % 65536).toNat / 256 % 256] := by
  simp [putUint16, Nat.shiftRight_eq_div_pow]

theorem toInt16_putUint16 (v : Int) (hlo : -32768 ≤ v) (hhi : v ≤ 32767) :
    toInt16 ((v % 65536).toNat % 256 ||| (((v % 65536).toNat / 256 % 256) <<< 8)) = v := by
  rw [or_shiftLeft_eight _ _ (Nat.mod_lt _ (by decide))]
  unfold toInt16
  split <;> omega

theorem putUint16_toInt16 (b0 b1 : Nat) (h0 : b0 < 256) (h1 : b1 < 256) :
    putUint16 (toInt16 (b0 ||| (b1 <<< 8))) = [b0, b1] := by
  rw [putUint16_eq, or_shiftLeft_eight _ _ h0]
  unfold toInt16
  split
  · simp only [List.cons.injEq, and_true]
    constructor <;> omega
  · simp only [List.cons.injEq, and_true]
    constructor <;> omega

theorem int16ToLittleEndian_length (xs : List Int) :
    (int16ToLittleEndian xs).length = 2 * xs.length := by
  induction xs with
  | nil => rfl
  | cons v rest ih =>
    have e : int16ToLittleEndian (v :: rest) = putUint16 v ++ int16ToLittleEndian rest := rfl
    rw [e, putUint16_eq]
    simp only [List.length_append, List.length_cons, List.length_nil, ih]
    omega

theorem bytesToInt16Loop_int16ToLittleEndian (xs : List Int)
    (hxs : ∀ x ∈ xs, -32768 ≤ x ∧ x ≤ 32767) :
    bytesToInt16Loop (int16ToLittleEndian xs) = xs := by
  induction xs with
  | nil => rfl
  | cons v rest ih =>
    have hv := hxs v (by simp)
    have hrest : ∀ x ∈ rest, -32768 ≤ x ∧ x ≤ 32767 := fun x hx => hxs x (by simp [hx])
    have e : int16ToLittleEndian (v :: rest) = putUint16 v ++ int16ToLittleEndian rest := rfl
    rw [e, putUint16_eq]
    simp only [List.cons_append, List.nil_append, bytesToInt16Loop]
    rw [toInt16_putUint16 v hv.1 hv.2]
    exact congrArg (List.cons v) (ih hrest)

theorem bytesToInt16Loop_length (bs : List Nat) :
    (bytesToInt16Loop bs).length = bs.length / 2 := by
  induction bs using bytesToInt16Loop.induct with
  | case1 b0 b1 rest ih =>
    simp only [bytesToInt16Loop, List.length_cons, ih]
    omega
  | case2 bs h =>
    match bs, h with
    | [], _ => rfl
    | [b], _ => simp [bytesToInt16Loop]
    | b0 :: b1 :: rest, h => exact absurd rfl (h b0 b1 rest)

theorem int16ToLittleEndian_bytesToInt16Loop (bs : List Nat) :
    (∀ b ∈ bs, b < 256) → bs.length % 2 = 0 →
      int16ToLittleEndian (bytesToInt16Loop bs) = bs := by
  induction bs using bytesToInt16Loop.induct with
  | case1 b0 b1 rest ih =>
    intro hb hlen
    have h0 := hb b0 (by simp)
    have h1 := hb b1 (by simp)
    have hrest : ∀ b ∈ rest, b < 256 := fun b hx => hb b (by simp [hx])
    have hl : rest.length % 2 = 0 := by
      simp only [List.length_cons] at hlen; omega
    have e : int16ToLittleEndian (bytesToInt16Loop (b0 :: b1 :: rest))
        = putUint16 (toInt16 (b0 ||| (b1 <<< 8)))
          ++ int16ToLittleEndian (bytesToInt16Loop rest) := rfl
    rw [e, putUint16_toInt16 b0 b1 h0 h1, ih hrest hl]
    rfl
  | case2 bs h =>
    intro _ hlen
    match bs, h, hlen with
    | [], _, _ => rfl
    | [b], _, hlen => simp at hlen
    | b0 :: b1 :: rest, h, _ => exact absurd rfl (h b0 b1 rest)

/-! ## The reference model of `Write` and call sequences: lemmas -/

theorem writeModel_eq_lastN (C : Nat) (q data : List Int) :
    writeModel C q data = lastN (C - 1) (q ++ data) := by
  simp only [writeModel, lastN, List.length_append]
  congr 1
  omega

theorem writeModel_length (C : Nat) (q data : List Int) :
    (writeModel C q data).length = min (q.length + data.length) (C - 1) := by
  simp only [writeModel, lastN, List.length_drop, List.length_append]
  omega

theorem writeIterations_eq (data : List Int) : ∀ cb : CircularBuffer,
    cb.writeIterations data = (cb.Write data).map (fun cb1 => (cb1, data.length)) := by
  induction data with
  | nil => intro cb; rfl
  | cons x rest ih =>
    intro cb
    simp only [CircularBuffer.writeIterations, CircularBuffer.Write]
    cases cb.writeSample x with
    | none => rfl
    | some cb1 =>
      simp only [Option.some_bind, ih cb1]
      cases cb1.Write rest with
      | none => rfl
      | some cb2 => rfl

theorem call_spec (cb : CircularBuffer) (h : cb.WellFormed) (c : Call) :
    ∃ cb1, cb.call c = some (cb1, c.argLength) ∧ cb1.WellFormed ∧ cb1.size = cb.size := by
  cases c with
  | Write data =>
    obtain ⟨cb1, e, w, s, _⟩ := Write_spec data cb h
    exact ⟨cb1, by simp [CircularBuffer.call, writeIterations_eq, e, Call.argLength], w, s⟩
  | Read out =>
    exact ⟨cb.advance (min out.length cb.available),
      by simp [CircularBuffer.call, Read_eq cb h out, Call.argLength],
      advance_wellFormed cb h _, rfl⟩

theorem calls_spec (cs : List Call) : ∀ (cb : CircularBuffer), cb.WellFormed →
    ∃ cb1, cb.calls cs = some (cb1, cs.map Call.argLength) ∧ cb1.WellFormed
      ∧ cb1.size = cb.size := by
  induction cs with
  | nil => intro cb h; exact ⟨cb, rfl, h, rfl⟩
  | cons c rest ih =>
    intro cb h
    obtain ⟨cb1, e1, w1, s1⟩ := call_spec cb h c
    obtain ⟨cb2, e2, w2, s2⟩ := ih cb1 w1
    exact ⟨cb2, by simp [CircularBuffer.calls, e1, e2], w2, by omega⟩

/-! ## PCM16 conversions, the reference model of `Write`, the index invariant: claims -/

/-- Claim C11. The PCM16 conversions are mutually inverse little-endian codecs.  For every
sequence `xs` of `int16` samples, negative ones included, `int16ToLittleEndian xs` has
length `2 * len xs` and `bytesToInt16` of it succeeds and returns `xs`.  For every byte
sequence `bs`, `bytesToInt16 bs` returns an error exactly when `len bs` is odd, and
otherwise returns a sequence `ys` of length `len bs / 2` with
`int16ToLittleEndian ys = bs`. -/
theorem pcm16_codecs_inverse (xs : List Int) (hxs : ∀ x ∈ xs, -32768 ≤ x ∧ x ≤ 32767)
    (bs : List Nat) (hbs : ∀ b ∈ bs, b < 256) :
    bytesToInt16 (int16ToLittleEndian xs) = Except.ok xs
      ∧ (int16ToLittleEndian xs).length = 2 * xs.length
      ∧ ((∃ e, bytesToInt16 bs = Except.error e) ↔ bs.length % 2 = 1)
      ∧ (bs.length % 2 = 0 →
          ∃ ys, bytesToInt16 bs = Except.ok ys ∧ ys.length = bs.length / 2
            ∧ int16ToLittleEndian ys = bs) := by
  refine ⟨?_, int16ToLittleEndian_length xs, ?_, ?_⟩
  · have hl := int16ToLittleEndian_length xs
    have he : ¬ (int16ToLittleEndian xs).length % 2 ≠ 0 := by omega
    rw [bytesToInt16, if_neg he, bytesToInt16Loop_int16ToLittleEndian xs hxs]
  · constructor
    · rintro ⟨e, he⟩
      by_cases hodd : bs.length % 2 ≠ 0
      · omega
      · rw [bytesToInt16, if_neg hodd] at he
        cases he
    · intro hodd
      have h : bs.length % 2 ≠ 0 := by omega
      exact ⟨_, by rw [bytesToInt16, if_pos h]⟩
  · intro heven
    have h : ¬ bs.length % 2 ≠ 0 := by omega
    exact ⟨bytesToInt16Loop bs, by rw [bytesToInt16, if_neg h], bytesToInt16Loop_length bs,
      int16ToLittleEndian_bytesToInt16Loop bs hbs heven⟩

/-- Witness of C11: four samples at the ends of the `int16` range, four bytes, and three
bytes. -/
theorem pcm16_codecs_inverse_witness :
    (∀ x ∈ ([1, -1, -32768, 32767] : List Int), -32768 ≤ x ∧ x ≤ 32767)
      ∧ (∀ b ∈ [1, 0, 255, 255], b < 256)
      ∧ bytesToInt16 (int16ToLittleEndian [1, -1, -32768, 32767])
          = Except.ok [1, -1, -32768, 32767]
      ∧ (∃ ys, bytesToInt16 [1, 0, 255, 255] = Except.ok ys ∧ ys.length = 4 / 2
          ∧ int16ToLittleEndian ys = [1, 0, 255, 255])
      ∧ ∃ e, bytesToInt16 [1, 0, 255] = Except.error e :=
  have h := pcm16_codecs_inverse [1, -1, -32768, 32767] (by decide) [1, 0, 255, 255]
    (by decide)
  have h3 := pcm16_codecs_inverse [] (by decide) [1, 0, 255] (by decide)
  ⟨by decide, by decide, h.1, h.2.2.2 (by decide), h3.2.2.1.mpr (by decide)⟩

/-- Claim C12. `Write` refines the reference model.  For every buffer of size `C ≥ 1` with
a backing store of that length and cursors in range, whose unread content is `q`, and for
every `data`, `Write(data)` succeeds and the unread content afterwards is exactly the last
`min (len q + len data) (C - 1)` elements of `q ++ data`: it has that length, never more
than `C - 1`; it is a suffix of `q ++ data`, so the surviving samples keep their write
order; and it is what a following `Read` delivers, padded with zeros. -/
theorem Write_refines_model (cb : CircularBuffer) (data out : List Int)
    (hC : 1 ≤ cb.size) (hbuf : cb.buffer.length = cb.size)
    (hstart : cb.start < cb.size) (hend : cb.end_ < cb.size) :
    ∃ cb1, cb.Write data = some cb1
      ∧ cb1.unread = writeModel cb.size cb.unread data
      ∧ cb1.unread.length = min (cb.unread.length + data.length) (cb.size - 1)
      ∧ cb1.unread.length ≤ cb.size - 1
      ∧ (∃ evicted, cb.unread ++ data = evicted ++ cb1.unread)
      ∧ ∃ cb2, cb1.Read out
          = some (cb2, (writeModel cb.size cb.unread data).take out.length
              ++ List.replicate (out.length - (writeModel cb.size cb.unread data).length) 0,
            out.length) := by
  obtain ⟨cb1, e, w, _, u⟩ := Write_spec data cb ⟨hC, hbuf, hstart, hend⟩
  rw [← writeModel_eq_lastN] at u
  have hl := writeModel_length cb.size cb.unread data
  obtain ⟨cb2, r⟩ := Read_unread cb1 w out
  rw [u] at r
  refine ⟨cb1, e, u, by rw [u, hl], by rw [u, hl]; omega, ?_, cb2, r⟩
  refine ⟨(cb.unread ++ data).take ((cb.unread ++ data).length - (cb.size - 1)), ?_⟩
  rw [u, writeModel_eq_lastN, lastN, List.take_append_drop]

/-- Witness of C12: a wrapped buffer of size 4 holding three unread samples, to which three
more are written. -/
theorem Write_refines_model_witness :
    ∃ cb1, (⟨[30, 0, 10, 20], 4, 2, 1⟩ : CircularBuffer).Write [40, 50, 60] = some cb1
      ∧ cb1.unread = writeModel 4 [10, 20, 30] [40, 50, 60]
      ∧ writeModel 4 [10, 20, 30] [40, 50, 60] = [40, 50, 60] :=
  have h := Write_refines_model ⟨[30, 0, 10, 20], 4, 2, 1⟩ [40, 50, 60] [0] (by decide)
    (by decide) (by decide) (by decide)
  match h with
  | ⟨cb1, e, u, _⟩ => ⟨cb1, e, u, by decide⟩

/-- Claim C13. The index invariant.  For every `C ≥ 1` and every sequence of `Write` and
`Read` calls on `NewCircularBuffer(C)`, no call panics (no index out of range, no modulus
by zero), the state reached satisfies `len(buffer) = size = C`, `start < C` and `end < C`,
and every call made exactly `len(data)` (`Write`) or `len(out)` (`Read`) loop
iterations. -/
theorem index_invariant (C : Nat) (hC : 1 ≤ C) (cs : List Call) :
    ∃ cb, (NewCircularBuffer C).calls cs = some (cb, cs.map Call.argLength)
      ∧ cb.buffer.length = C ∧ cb.size = C ∧ cb.start < C ∧ cb.end_ < C := by
  obtain ⟨cb, e, ⟨_, h2, h3, h4⟩, s⟩ :=
    calls_spec cs (NewCircularBuffer C) (NewCircularBuffer_wellFormed C hC)
  have hs : cb.size = C := s
  exact ⟨cb, e, by omega, hs, by omega, by omega⟩

/-- Witness of C13: four calls on a buffer of size 3, the first of which overflows it. -/
theorem index_invariant_witness :
    ∃ cb, (NewCircularBuffer 3).calls
          [Call.Write [1, 2, 3, 4], Call.Read [0, 0], Call.Write [], Call.Read [0, 0, 0, 0]]
        = some (cb, [4, 2, 0, 4])
      ∧ cb.buffer.length = 3 ∧ cb.size = 3 ∧ cb.start < 3 ∧ cb.end_ < 3 :=
  index_invariant 3 (by decide)
    [Call.Write [1, 2, 3, 4], Call.Read [0, 0], Call.Write [], Call.Read [0, 0, 0, 0]]

end Gortvoice
